import Mathlib

/-!
# Verification of the `smart-llm-agents` orchestration core

A shallow embedding of the agent-orchestration engine of the repository:

* `src/llm_agents/agent.py` — `Memory`, `EnhancedAgent` (run loop, `_parse`);
* `src/llm_agents/advanced_agent.py` — `AgentMemory`, `AdvancedAgent`;
* `src/llm_agents/tools/advanced_tool.py` — `ToolError`, `AdvancedTool.use`;
* `src/llm_agents/tools/enhanced_tool_manager.py` — `ToolStats`,
  `EnhancedToolManager`.

Python strings are modelled as `List Char`; machine timestamps are abstract
`Nat` ticks supplied by the caller (the code takes them from `datetime.now()`,
what matters for the properties below is only their ordering, which we leave
fully abstract); float similarity scores and response times are modelled as
rationals; the opaque LLM is an oracle `Nat → List Char` giving the raw model
response of each loop iteration; each tool's behaviour is an abstract function
`List Char → Except PyExc (List Char)`, where `PyExc` mirrors the exception
values the code distinguishes.
-/

namespace SmartLLMAgents

/-! ## Python exception values

`ToolError` is the class defined in `tools/advanced_tool.py`; `valueError`
models `ValueError`, `keyError` models `KeyError`, and `exception` models a
bare `Exception(...)`. -/
inductive PyExc where
  | toolError (message toolName errorType : List Char)
  | valueError (message : List Char)
  | keyError (key : List Char)
  | exception (message : List Char)
deriving DecidableEq

/-- `str(e)` for the modelled exceptions.  For `ToolError` the message is the
one built by `ToolError.__init__` via `super().__init__`. -/
def pyStrExc : PyExc → List Char
  | .toolError m n t => n ++ (" error (".data) ++ t ++ ("): ".data) ++ m
  | .valueError m => m
  | .keyError k => k
  | .exception m => m

/-- Is a tool-call result the raising of a `ToolError`? -/
def errIsToolError : Except PyExc (List Char) → Bool
  | .error (.toolError _ _ _) => true
  | _ => false

/-! ## Python string helpers -/
/-- Characters stripped by Python's `str.strip()` with no argument. -/
def pySpace (c : Char) : Bool :=
  c == ' ' || c == '\t' || c == '\n' || c == '\x0d' || c == '\x0b' || c == '\x0c'

/-- `s.strip()`. -/
def pyStrip (l : List Char) : List Char :=
  ((l.dropWhile pySpace).reverse.dropWhile pySpace).reverse

/-- `s.strip(c)` for a one-character argument. -/
def pyStripChar (c : Char) (l : List Char) : List Char :=
  ((l.dropWhile (· == c)).reverse.dropWhile (· == c)).reverse

/-- Split a list at the first occurrence of `pat`, returning the part before
the occurrence and the part after it.  `none` when `pat` does not occur.
Models the scan used by `str.split` / `in` / `re`-literal search. -/
def splitFirst (pat : List Char) : List Char → Option (List Char × List Char)
  | [] => if pat = [] then some ([], []) else none
  | c :: rest =>
    if pat.isPrefixOf (c :: rest) then some ([], (c :: rest).drop pat.length)
    else (splitFirst pat rest).map (fun p => (c :: p.1, p.2))

/-- `pat in s` (Python substring test). -/
def occursIn (pat l : List Char) : Bool := (splitFirst pat l).isSome

/-- The suffix of `l` after the last non-overlapping occurrence of `pat`
(scanning from the left), i.e. `l.split(pat)[-1]`; `l` itself when `pat` does
not occur.  Fuel-driven: `l.length` steps always suffice for nonempty `pat`. -/
def afterLastAux (pat : List Char) : Nat → List Char → List Char
  | 0, l => l
  | fuel + 1, l =>
    match splitFirst pat l with
    | some p => afterLastAux pat fuel p.2
    | none => l

def afterLast (pat l : List Char) : List Char := afterLastAux pat l.length l

/-! ## Bounded FIFO push

Both memory classes implement capacity with the same two lines
(`append` then `pop(0)` when the length exceeds the bound); `fifoPush` is that
shared logic and `window` the window of most recent elements it maintains. -/
def fifoPush {α : Type} (maxLen : Nat) (l : List α) (x : α) : List α :=
  let st := l ++ [x]
  if maxLen < st.length then st.tail else st

/-- The last `maxLen` elements of `l`, in order. -/
def window {α : Type} (maxLen : Nat) (l : List α) : List α :=
  l.drop (l.length - maxLen)

/-! ## Insertion-ordered dict helpers

`embeddings`, `tool_chains` and `tool_stats` are Python dicts; we model them
as association lists in insertion order (re-assignment keeps the position,
`del` removes the pair), matching CPython dict semantics. -/
def dictMem {V : Type} (d : List (List Char × V)) (k : List Char) : Bool :=
  d.any (fun p => p.1 == k)

def dictSet {V : Type} (d : List (List Char × V)) (k : List Char) (v : V) :
    List (List Char × V) :=
  if dictMem d k then d.map (fun p => if p.1 == k then (k, v) else p) else d ++ [(k, v)]

def dictDel {V : Type} (d : List (List Char × V)) (k : List Char) :
    List (List Char × V) :=
  d.filter (fun p => !(p.1 == k))

def dictGet {V : Type} (d : List (List Char × V)) (k : List Char) : Option V :=
  (d.find? (fun p => p.1 == k)).map (·.2)

/-! ## `Memory` (src/llm_agents/agent.py) -/
/-- A `short_term` entry of `Memory` (dict with keys
`thought`/`action`/`result`/`timestamp`). -/
structure ShortEntry where
  thought : List Char
  action : List Char
  result : List Char
  timestamp : Nat
deriving DecidableEq

/-- A `long_term` entry of `Memory` (keys `key`/`value`/`timestamp`). -/
structure LTEntry where
  key : List Char
  value : List Char
  timestamp : Nat
deriving DecidableEq

structure Memory where
  short_term : List ShortEntry
  long_term : List LTEntry
  max_short_term : Nat
  max_long_term : Nat
deriving DecidableEq

/-- `Memory()` with given capacities (pydantic defaults are 10 and 100). -/
def Memory.init (maxS maxL : Nat) : Memory :=
  { short_term := [], long_term := [], max_short_term := maxS, max_long_term := maxL }

/-- `Memory.add_short_term`: append, then `pop(0)` when over capacity.
`now` abstracts `datetime.datetime.now()`. -/
def Memory.add_short_term (m : Memory) (thought action result : List Char)
    (now : Nat) : Memory :=
  { m with short_term := fifoPush m.max_short_term m.short_term ⟨thought, action, result, now⟩ }

/-- `Memory.add_long_term`: same append/pop-front discipline on `long_term`. -/
def Memory.add_long_term (m : Memory) (key value : List Char) (now : Nat) : Memory :=
  { m with long_term := fifoPush m.max_long_term m.long_term ⟨key, value, now⟩ }

/-! ## `AgentMemory` (src/llm_agents/advanced_agent.py)

Parametrised by the embedding type `E`; `encode` abstracts
`SentenceTransformer.encode`. -/
/-- A `short_term` entry of `AgentMemory` (adds a `metadata` dict, whose
values in the code are floats — modelled as rationals). -/
structure AShortEntry where
  thought : List Char
  action : List Char
  result : List Char
  timestamp : Nat
  metadata : List (List Char × ℚ)
deriving DecidableEq

/-- A `long_term` entry of `AgentMemory`. -/
structure ALongEntry where
  key : List Char
  value : List Char
  timestamp : Nat
  metadata : List (List Char × ℚ)
deriving DecidableEq

structure AgentMemory (E : Type) where
  short_term : List AShortEntry
  long_term : List ALongEntry
  embeddings : List (List Char × E)
  max_short_term : Nat
  max_long_term : Nat

/-- A fresh `AgentMemory()` (pydantic defaults: 20 and 1000). -/
def AgentMemory.init (E : Type) (maxS maxL : Nat) : AgentMemory E :=
  { short_term := [], long_term := [], embeddings := [],
    max_short_term := maxS, max_long_term := maxL }

/-- `AgentMemory.add_short_term`. -/
def AgentMemory.add_short_term {E : Type} (m : AgentMemory E)
    (thought action result : List Char) (metadata : List (List Char × ℚ))
    (now : Nat) : AgentMemory E :=
  { m with short_term :=
      fifoPush m.max_short_term m.short_term ⟨thought, action, result, now, metadata⟩ }

/-- `AgentMemory.add_long_term`: append the entry, store
`embeddings[key] = encode(str(value))`, then on overflow `pop(0)` the oldest
entry and `del` its embedding if the key is present. -/
def AgentMemory.add_long_term {E : Type} (encode : List Char → E) (m : AgentMemory E)
    (key value : List Char) (metadata : List (List Char × ℚ)) (now : Nat) :
    AgentMemory E :=
  let lt := m.long_term ++ [⟨key, value, now, metadata⟩]
  let emb := dictSet m.embeddings key (encode value)
  if m.max_long_term < lt.length then
    match lt with
    | [] => { m with long_term := [], embeddings := emb }
    | oldest :: rest =>
      { m with
        long_term := rest,
        embeddings := if dictMem emb oldest.key then dictDel emb oldest.key else emb }
  else { m with long_term := lt, embeddings := emb }

/-! ## Claim C3: short-term memory is a FIFO window -/
/-- One recorded `add_short_term` call (arguments plus abstract wall-clock). -/
structure ShortCall where
  thought : List Char
  action : List Char
  result : List Char
  now : Nat
deriving DecidableEq

def ShortCall.entry (c : ShortCall) : ShortEntry := ⟨c.thought, c.action, c.result, c.now⟩

def ShortCall.aentry (c : ShortCall) (metadata : List (List Char × ℚ)) : AShortEntry :=
  ⟨c.thought, c.action, c.result, c.now, metadata⟩

/-- Replay a sequence of `add_short_term` calls against `Memory`. -/
def Memory.replayShort (m : Memory) (calls : List ShortCall) : Memory :=
  calls.foldl (fun acc c => acc.add_short_term c.thought c.action c.result c.now) m

/-- Replay a sequence of `add_short_term` calls against `AgentMemory`
(every call with metadata `md`). -/
def AgentMemory.replayShort {E : Type} (m : AgentMemory E) (md : List (List Char × ℚ))
    (calls : List ShortCall) : AgentMemory E :=
  calls.foldl (fun acc c => acc.add_short_term c.thought c.action c.result md c.now) m

/-! ## Claim C4: long-term eviction and the embedding-key invariant -/
/-- One recorded `add_long_term` call on `AgentMemory`. -/
structure LongCall where
  key : List Char
  value : List Char
  metadata : List (List Char × ℚ)
  now : Nat

/-- Replay a sequence of `add_long_term` calls against `AgentMemory`. -/
def AgentMemory.replayLong {E : Type} (encode : List Char → E) (m : AgentMemory E)
    (calls : List LongCall) : AgentMemory E :=
  calls.foldl (fun acc c => acc.add_long_term encode c.key c.value c.metadata c.now) m

/-- The induction invariant for C4: the embedding-keys list equals the live
long-term-keys list, and the live keys are pairwise distinct. -/
def embInvariant {E : Type} (m : AgentMemory E) : Prop :=
  m.embeddings.map Prod.fst = m.long_term.map ALongEntry.key ∧
    (m.long_term.map ALongEntry.key).Nodup

/-! ## `EnhancedAgent._parse` (src/llm_agents/agent.py)

The module constants, and a faithful executable model of
`re.search(r"Action: [\[]?(.*?)[\]]?[\n]*Action Input:[\s]*(.*)", text, re.DOTALL)`.

Because the lazy group `(.*?)` can absorb anything under `re.DOTALL`, a match
starting at an occurrence of `"Action: "` succeeds exactly when
`"Action Input:"` occurs later; `re.search` therefore anchors at the first
occurrence of `"Action: "`, group 1 is the shortest prefix of the remainder
(after an optional leading `[`) that is followed by an optional `]`, then
newlines, then `"Action Input:"`, and group 2 is everything after the first
such `"Action Input:"` and the greedily consumed whitespace. -/
def FINAL_ANSWER_TOKEN : List Char := "Final Answer:".data

def OBSERVATION_TOKEN : List Char := "Observation:".data

def THOUGHT_TOKEN : List Char := "Thought:".data

def ACTION_LABEL : List Char := "Action: ".data

def ACTION_INPUT_LABEL : List Char := "Action Input:".data

/-- Match `[\]]?[\n]*Action Input:` at the head of `l`, returning the
remainder after the literal. -/
def tailMatch (l : List Char) : Option (List Char) :=
  let l1 := match l with
    | ']' :: r => r
    | r => r
  let l2 := l1.dropWhile (· == '\n')
  if ACTION_INPUT_LABEL.isPrefixOf l2 then some (l2.drop ACTION_INPUT_LABEL.length)
  else none

/-- Shortest split `l = g1 ++ tail-pattern-match`: the lazy `(.*?)` group and
the remainder after `Action Input:`. -/
def findTailSplit : List Char → Option (List Char × List Char)
  | [] => (tailMatch []).map (fun rest => (([] : List Char), rest))
  | c :: r =>
    match tailMatch (c :: r) with
    | some rest => some ([], rest)
    | none => (findTailSplit r).map (fun p => (c :: p.1, p.2))

/-- The whole regex search: `some (group1, group2)` on a match. -/
def matchAction (g : List Char) : Option (List Char × List Char) :=
  match splitFirst ACTION_LABEL g with
  | none => none
  | some pr =>
    let rem := match pr.2 with
      | '[' :: r => r
      | r => r
    match findTailSplit rem with
    | none => none
    | some p => some (p.1, p.2.dropWhile pySpace)

/-- `EnhancedAgent._parse`: the final-answer marker takes priority; otherwise
the action regex must match, else `ValueError`. The returned pair is
`(tool, tool_input)`, with `("Final Answer", payload)` as the sentinel used by
the run loop. -/
def parseGenerated (generated : List Char) : Except PyExc (List Char × List Char) :=
  if occursIn FINAL_ANSWER_TOKEN generated then
    .ok ("Final Answer".data, pyStrip (afterLast FINAL_ANSWER_TOKEN generated))
  else
    match matchAction generated with
    | none => .error (.valueError
        ("Output of LLM is not parsable for next tool use: `".data ++ generated ++
          "`".data))
    | some p => .ok (pyStrip p.1, pyStripChar '\"' (pyStripChar ' ' p.2))

/-! ## `AdvancedTool.use` (src/llm_agents/tools/advanced_tool.py)

One `_execute` attempt either returns a result, times out (the
`asyncio.TimeoutError` branch) or raises (the `except Exception` branch); the
outcome of each attempt is supplied by an oracle
`execA : List Char → Nat → AttemptOutcome` (processed input, attempt index).
The `await asyncio.sleep(1)` between attempts has no modelled effect. -/
inductive AttemptOutcome where
  | ok (result : List Char)
  | timeout
  | exc (message : List Char)

def AttemptOutcome.isOk : AttemptOutcome → Bool
  | .ok _ => true
  | _ => false

structure AdvToolCfg where
  max_retries : Nat
  timeout : Nat
  cache_results : Bool
  pre_processors : List (List Char → List Char)
  post_processors : List (List Char → List Char)

/-- `for processor in ...: x = processor(x)`. -/
def applyAll (ps : List (List Char → List Char)) (x : List Char) : List Char :=
  ps.foldl (fun acc p => p acc) x

def natStr (n : Nat) : List Char := (Nat.repr n).data

/-- Python renders `None` into the f-string when no attempt ever ran. -/
def renderLastError : Option (List Char) → List Char
  | none => "None".data
  | some m => m

def timeoutMsg (t : Nat) : List Char :=
  "Timeout after ".data ++ natStr t ++ " seconds".data

def failMsg (n : Nat) (lastErr : Option (List Char)) : List Char :=
  "Failed after ".data ++ natStr n ++ " attempts. Last error: ".data ++
    renderLastError lastErr

/-- The `last_error` string a failed attempt records. -/
def attemptError (cfg : AdvToolCfg) : AttemptOutcome → Option (List Char)
  | .ok _ => none
  | .timeout => some (timeoutMsg cfg.timeout)
  | .exc m => some m

/-- The retry loop of `AdvancedTool.use` (`for attempt in range(max_retries)`;
`fuel` counts the attempts still available, so `attempt = max_retries - fuel`);
falling off the loop raises the bare
`Exception(f"Failed after ... Last error: ...")`. -/
def useLoop (cfg : AdvToolCfg) (execA : Nat → AttemptOutcome) :
    Nat → Nat → Option (List Char) → Except PyExc (List Char)
  | _, 0, lastErr => .error (.exception (failMsg cfg.max_retries lastErr))
  | attempt, fuel + 1, _lastErr =>
    match execA attempt with
    | .ok r => .ok (applyAll cfg.post_processors r)
    | .timeout => useLoop cfg execA (attempt + 1) fuel (some (timeoutMsg cfg.timeout))
    | .exc m => useLoop cfg execA (attempt + 1) fuel (some m)

/-- `AdvancedTool.use`: cache lookup on the raw input, pre-processing, bounded
retries, post-processing, cache store.  Returns the call's result and the
updated cache. -/
def AdvancedTool.use (cfg : AdvToolCfg) (cache : List (List Char × List Char))
    (execA : List Char → Nat → AttemptOutcome) (input : List Char) :
    Except PyExc (List Char) × List (List Char × List Char) :=
  match (if cfg.cache_results then dictGet cache input else none) with
  | some r => (.ok r, cache)
  | none =>
    let processed := applyAll cfg.pre_processors input
    match useLoop cfg (execA processed) 0 cfg.max_retries none with
    | .ok r => (.ok r, if cfg.cache_results then dictSet cache input r else cache)
    | .error e => (.error e, cache)

/-! ## `EnhancedToolManager` (src/llm_agents/tools/enhanced_tool_manager.py) -/
structure ToolStats where
  usage_count : Nat
  success_count : Nat
  error_count : Nat
  last_used : Option Nat
  average_response_time : ℚ
deriving DecidableEq

def ToolStats.init : ToolStats :=
  { usage_count := 0, success_count := 0, error_count := 0, last_used := none,
    average_response_time := 0 }

/-- The net statistics update of one tool invocation: the `try`/`except`
increments `success_count` or `error_count`, the `finally` increments
`usage_count`, sets `last_used` and folds the elapsed time `rt` into the
incremental mean (using the already-incremented `usage_count`). -/
def ToolStats.bump (s : ToolStats) (ok : Bool) (now : Nat) (rt : ℚ) : ToolStats :=
  { usage_count := s.usage_count + 1,
    success_count := s.success_count + (if ok then 1 else 0),
    error_count := s.error_count + (if ok then 0 else 1),
    last_used := some now,
    average_response_time :=
      (s.average_response_time * (((s.usage_count + 1 : Nat) : ℚ) - 1) + rt) /
        ((s.usage_count + 1 : Nat) : ℚ) }

abbrev ToolBehavior := List Char → Except PyExc (List Char)

structure EnhancedToolManager where
  tools : List (List Char × ToolBehavior)
  tool_stats : List (List Char × ToolStats)
  tool_chains : List (List Char × List (List Char))

/-- `EnhancedToolManager.__init__`: stats initialised for each tool, no
chains. -/
def mkManager (tools : List (List Char × ToolBehavior)) : EnhancedToolManager :=
  { tools := tools,
    tool_stats := tools.map (fun t => (t.1, ToolStats.init)),
    tool_chains := [] }

/-- `self.tool_stats[tool_name]` mutation; the constructor registers every
tool name, so for reachable states the name is always present (Python would
raise `KeyError` otherwise). -/
def statsUpdate (stats : List (List Char × ToolStats)) (name : List Char)
    (ok : Bool) (now : Nat) (rt : ℚ) : List (List Char × ToolStats) :=
  stats.map (fun p => if p.1 == name then (p.1, p.2.bump ok now rt) else p)

def lookupStats (m : EnhancedToolManager) (name : List Char) : Option ToolStats :=
  (m.tool_stats.find? (fun p => p.1 == name)).map (·.2)

/-- `EnhancedToolManager.define_tool_chain`. -/
def defineToolChain (m : EnhancedToolManager) (name : List Char)
    (tool_names : List (List Char)) : EnhancedToolManager :=
  { m with tool_chains := dictSet m.tool_chains name tool_names }

/-- `EnhancedToolManager.execute_tool`: find the tool (`ValueError` when
absent), invoke it, update the stats exactly once whether it returned or
raised, re-raise on failure.  `now` is the invocation's timestamp and `rt`
its elapsed wall-clock time. -/
def executeTool (m : EnhancedToolManager) (name input : List Char)
    (now : Nat) (rt : ℚ) : Except PyExc (List Char) × EnhancedToolManager :=
  match m.tools.find? (fun t => t.1 == name) with
  | none => (.error (.valueError ("Tool '".data ++ name ++ "' not found".data)), m)
  | some t =>
    match t.2 input with
    | .ok r => (.ok r, { m with tool_stats := statsUpdate m.tool_stats name true now rt })
    | .error e =>
      (.error e, { m with tool_stats := statsUpdate m.tool_stats name false now rt })

/-- The `for tool_name in self.tool_chains[chain_name]` loop of
`execute_tool_chain`.  Returns the result, the updated manager, the next
clock tick and the trace of the tool names actually invoked (in order).
Tool lookup happens per iteration: an undefined name raises `ValueError`
only when it is reached. -/
def executeChainGo (chain : List Char) (rtO : Nat → ℚ) :
    EnhancedToolManager → List (List Char) → List Char → Nat →
    Except PyExc (List Char) × EnhancedToolManager × Nat × List (List Char)
  | m, [], current, clock => (.ok current, m, clock, [])
  | m, name :: rest, current, clock =>
    match m.tools.find? (fun t => t.1 == name) with
    | none =>
      (.error (.valueError ("Tool '".data ++ name ++ "' not found in chain '".data ++
        chain ++ "'".data)), m, clock, [])
    | some t =>
      match t.2 current with
      | .error e =>
        (.error e,
          { m with tool_stats := statsUpdate m.tool_stats name false clock (rtO clock) },
          clock + 1, [name])
      | .ok out =>
        let m' := { m with
          tool_stats := statsUpdate m.tool_stats name true clock (rtO clock) }
        match executeChainGo chain rtO m' rest out (clock + 1) with
        | (res, m2, c2, tr) => (res, m2, c2, name :: tr)

/-- `EnhancedToolManager.execute_tool_chain`. -/
def executeToolChain (m : EnhancedToolManager) (chain input : List Char)
    (clock : Nat) (rtO : Nat → ℚ) :
    Except PyExc (List Char) × EnhancedToolManager × Nat × List (List Char) :=
  match dictGet m.tool_chains chain with
  | none =>
    (.error (.valueError ("Tool chain '".data ++ chain ++ "' not found".data)),
      m, clock, [])
  | some names => executeChainGo chain rtO m names input clock

/-- One public operation on the manager, for stating state invariants. -/
inductive MgrOp where
  | execTool (name input : List Char)
  | execChain (name input : List Char)
  | defChain (name : List Char) (tool_names : List (List Char))

/-- Apply an operation, threading the abstract clock (one tick per tool
invocation; `rtO` gives each tick's elapsed time). -/
def applyOp (rtO : Nat → ℚ) (s : EnhancedToolManager × Nat) (op : MgrOp) :
    EnhancedToolManager × Nat :=
  match op with
  | .execTool name input =>
    ((executeTool s.1 name input s.2 (rtO s.2)).2, s.2 + 1)
  | .execChain name input =>
    match executeToolChain s.1 name input s.2 rtO with
    | (_, m', c', _) => (m', c')
  | .defChain name tool_names => (defineToolChain s.1 name tool_names, s.2)

def applyOps (rtO : Nat → ℚ) (s : EnhancedToolManager × Nat) (ops : List MgrOp) :
    EnhancedToolManager × Nat :=
  ops.foldl (applyOp rtO) s

/-! ## Claim C9: `usage_count = success_count + error_count`, one update per call -/
/-- The stats invariant of C9. -/
def statsBalanced (s : ToolStats) : Prop :=
  s.usage_count = s.success_count + s.error_count

def mgrBalanced (m : EnhancedToolManager) : Prop :=
  ∀ p ∈ m.tool_stats, statsBalanced p.2

/-! ## `EnhancedAgent.run` (src/llm_agents/agent.py)

The loop `while num_loops < self.max_loops` is modelled with the guard kept
verbatim and a structural `fuel` argument (the run entry point passes
`fuel = max_loops`, which always dominates the remaining iterations, so the
guard — not the fuel — is what stops the loop).  `oracle n` is the text the
LLM returns in iteration `n`; memory timestamps are the iteration index.
Returning `.ok none` models the `None` that `run` produces by falling off the
loop (Python functions return `None` implicitly); `.ok (some s)` is
`return tool_input`; `.error e` is an uncaught exception.  The prompt that is
built and printed does not influence the model — `oracle` already ranges over
every possible reply.  `tool_by_names` is a dict comprehension, so a
duplicated tool name resolves to the *last* tool carrying it: lookup searches
the reversed list. -/
def runGo (tools : List (List Char × ToolBehavior)) (oracle : Nat → List Char)
    (question : List Char) :
    Memory → List (List Char) → Nat → Nat → Nat →
    Except PyExc (Option (List Char)) × Memory × Nat
  | mem, _prev, numLoops, _maxLoops, 0 => (.ok none, mem, numLoops)
  | mem, prev, numLoops, maxLoops, fuel + 1 =>
    if numLoops < maxLoops then
      let generated := oracle numLoops
      match parseGenerated generated with
      | .error e => (.error e, mem, numLoops + 1)
      | .ok (tool, toolInput) =>
        if tool = "Final Answer".data then
          (.ok (some toolInput),
            mem.add_long_term question toolInput numLoops, numLoops + 1)
        else
          match (tools.reverse).find? (fun t => t.1 == tool) with
          | none =>
            (.error (.valueError ("Unknown tool: ".data ++ tool)), mem, numLoops + 1)
          | some t =>
            match t.2 toolInput with
            | .ok toolResult =>
              let mem' := mem.add_short_term
                (pyStrip (afterLast THOUGHT_TOKEN generated))
                (tool ++ ": ".data ++ toolInput) toolResult numLoops
              let gen' := generated ++ "\n".data ++ OBSERVATION_TOKEN ++ " ".data ++
                toolResult ++ "\n".data ++ THOUGHT_TOKEN
              runGo tools oracle question mem' (prev ++ [gen']) (numLoops + 1)
                maxLoops fuel
            | .error e =>
              let toolResult := "Error executing tool: ".data ++ pyStrExc e
              let gen' := generated ++
                "\nThought: I encountered an error. Let me try a different approach.".data ++
                "\n".data ++ OBSERVATION_TOKEN ++ " ".data ++ toolResult ++ "\n".data ++
                THOUGHT_TOKEN
              runGo tools oracle question mem (prev ++ [gen']) (numLoops + 1)
                maxLoops fuel
    else (.ok none, mem, numLoops)

/-- `EnhancedAgent.run(question)`: result, final memory, iterations executed. -/
def enhancedRun (tools : List (List Char × ToolBehavior)) (oracle : Nat → List Char)
    (question : List Char) (mem0 : Memory) (maxLoops : Nat) :
    Except PyExc (Option (List Char)) × Memory × Nat :=
  runGo tools oracle question mem0 [] 0 maxLoops maxLoops

/-- Did `_parse` produce the `"Final Answer"` sentinel? -/
def isFinalParse : Except PyExc (List Char × List Char) → Bool
  | .ok p => p.1 == "Final Answer".data
  | .error _ => false

/-- Did `run` return an actual answer string? -/
def returnsSomeString : Except PyExc (Option (List Char)) → Bool
  | .ok (some _) => true
  | _ => false

/-! ## `AdvancedAgent.run` (src/llm_agents/advanced_agent.py)

`_parse_action` ignores the model reply and always yields
`{"type": "tool", "tool": "example", "input": "example"}` with confidence
`0.9` (floats modelled as rationals; the `0.1` progress step likewise — the
properties proved below do not depend on float rounding);
`_generate_fallback_action` yields the `"fallback"` action.  In
`_execute_tool`, a tool name that is absent from `self.tools` makes the
`next(...)` call raise (caught by the `except` branch — the exact message is
irrelevant, modelled as `"StopIteration"`), and a name absent from
`tool_stats` makes the stats increment raise an uncaught `KeyError`. -/
structure AgentGoal where
  main_goal : List Char
  sub_goals : List (List Char)
  status : List Char
  progress : ℚ
  created_at : Nat
  updated_at : Nat

/-- `self.tool_stats[name]["success"/"failure"] += 1`; `none` models the
`KeyError` on a missing name. -/
def advStatsIncr (stats : List (List Char × Nat × Nat)) (name : List Char)
    (ok : Bool) : Option (List (List Char × Nat × Nat)) :=
  if stats.any (fun p => p.1 == name) then
    some (stats.map (fun p => if p.1 == name then
      (p.1, if ok then (p.2.1 + 1, p.2.2) else (p.2.1, p.2.2 + 1)) else p))
  else none

/-- `AdvancedAgent._execute_tool`: the inner `try` body (tool resolution and
invocation), the success/failure counter updates, and the conversion of any
tool exception into an `"Error executing tool ..."` observation string. -/
def advExecuteTool (tools : List (List Char × ToolBehavior))
    (stats : List (List Char × Nat × Nat)) (name input : List Char) :
    Except PyExc (List Char) × List (List Char × Nat × Nat) :=
  let inner : Except PyExc (List Char) :=
    match tools.find? (fun t => t.1 == name) with
    | none => .error (.exception "StopIteration".data)
    | some t => t.2 input
  match inner with
  | .ok r =>
    match advStatsIncr stats name true with
    | some stats' => (.ok r, stats')
    | none => (.error (.keyError name), stats)
  | .error e =>
    match advStatsIncr stats name false with
    | some stats' =>
      (.ok ("Error executing tool ".data ++ name ++ ": ".data ++ pyStrExc e), stats')
    | none => (.error (.keyError name), stats)

def ADV_FINAL : List Char := "Final answer based on all interactions".data

/-- The `while num_loops < self.max_loops and ... != "completed"` loop of
`AdvancedAgent.run`; returns the result and the iterations executed. -/
def advRunGo (tools : List (List Char × ToolBehavior)) (threshold : ℚ) :
    AgentMemory (List Char) → AgentGoal → List (List Char × Nat × Nat) →
    List ((List Char) × (List Char)) → Nat → Nat → Nat →
    Except PyExc (List Char) × Nat
  | _mem, _goal, _stats, _prev, numLoops, _maxLoops, 0 => (.ok ADV_FINAL, numLoops)
  | mem, goal, stats, prev, numLoops, maxLoops, fuel + 1 =>
    if numLoops < maxLoops ∧ goal.status ≠ "completed".data then
      let confidence : ℚ := 9 / 10
      let action : (List Char) × (List Char) :=
        if confidence < threshold then ("fallback".data, "fallback".data)
        else ("example".data, "example".data)
      match advExecuteTool tools stats action.1 action.2 with
      | (.error e, _) => (.error e, numLoops + 1)
      | (.ok result, stats') =>
        let mem' := mem.add_short_term [] ("tool: ".data ++ action.1) result
          [("confidence".data, 0)] numLoops
        let progress' := min 1 (goal.progress + 1 / 10)
        let goal' := { goal with progress := progress', updated_at := numLoops }
        let prev' := prev ++ [(action.1, result)]
        if 1 ≤ progress' then (.ok ADV_FINAL, numLoops + 1)
        else advRunGo tools threshold mem' goal' stats' prev' (numLoops + 1)
          maxLoops fuel
    else (.ok ADV_FINAL, numLoops)

/-- `AdvancedAgent.run(goal)`: fresh memory, the goal decomposed by
`_decompose_goal` into the two hard-coded sub-goals, stats initialised from
the tool list. -/
def advRun (tools : List (List Char × ToolBehavior)) (threshold : ℚ)
    (goalText : List Char) (maxLoops : Nat) : Except PyExc (List Char) × Nat :=
  advRunGo tools threshold (AgentMemory.init (List Char) 20 1000)
    { main_goal := goalText,
      sub_goals := ["First sub-goal".data, "Second sub-goal".data],
      status := "in_progress".data, progress := 0, created_at := 0, updated_at := 0 }
    (tools.map (fun t => (t.1, (0, 0)))) [] 0 maxLoops maxLoops

/-! ## `AgentMemory.get_relevant_memory` (src/llm_agents/advanced_agent.py)

`similarities` is a dict built by iterating `self.embeddings.items()` (so in
embedding-insertion order); `sorted(..., key=lambda x: x[1], reverse=True)` is
CPython's *stable* sort, modelled by Mathlib's (stable) `List.insertionSort`
over the descending order `simGE`; `[:top_k]` is `take`; each ranked key is
resolved to the *first* (oldest) matching long-term entry by
`next(item for item in self.long_term if item["key"] == key)` (modelled with
`find?`; the `StopIteration` Python would raise when no entry matches an
embedding key is modelled by `filterMap` skipping — unreachable when the
embedding invariant holds).  `cos` abstracts `cosine_similarity`, `encode`
abstracts the sentence-transformer. -/
def simGE {P : Type} (a b : P × ℚ) : Prop := b.2 ≤ a.2

instance {P : Type} : DecidableRel (@simGE P) :=
  fun a b => inferInstanceAs (Decidable (b.2 ≤ a.2))

instance {P : Type} : IsTotal (P × ℚ) simGE :=
  ⟨fun a b => (le_total b.2 a.2).imp (fun h => h) (fun h => h)⟩

instance {P : Type} : IsTrans (P × ℚ) simGE :=
  ⟨fun _ _ _ hab hbc => le_trans hbc hab⟩

/-- The `(key, similarity)` pairs, in embedding-insertion order. -/
def relPairs {E : Type} (cos : E → E → ℚ) (encode : List Char → E)
    (m : AgentMemory E) (query : List Char) : List ((List Char) × ℚ) :=
  m.embeddings.map (fun p => (p.1, cos (encode query) p.2))

/-- `sorted(similarities.items(), key=..., reverse=True)[:top_k]`. -/
def relRanked {E : Type} (cos : E → E → ℚ) (encode : List Char → E)
    (m : AgentMemory E) (query : List Char) (k : Nat) : List ((List Char) × ℚ) :=
  (List.insertionSort simGE (relPairs cos encode m query)).take k

def AgentMemory.get_relevant_memory {E : Type} (cos : E → E → ℚ)
    (encode : List Char → E) (m : AgentMemory E) (query : List Char) (k : Nat) :
    List ALongEntry :=
  (relRanked cos encode m query k).filterMap
    (fun kv => m.long_term.find? (fun item => item.key == kv.1))

/-! ## Theorems -/

theorem length_window {α : Type} (maxLen : Nat) (l : List α) :
    (window maxLen l).length ≤ maxLen := by
  simp only [window, List.length_drop]
  omega

theorem fifoPush_window {α : Type} (maxLen : Nat) (l : List α) (x : α) :
    fifoPush maxLen (window maxLen l) x = window maxLen (l ++ [x]) := by
  unfold fifoPush window
  simp only [List.length_append, List.length_drop, List.length_singleton]
  by_cases hm : maxLen = 0
  · subst hm
    simp [List.drop_eq_nil_of_le, Nat.le_add_right]
  · by_cases h : l.length < maxLen
    · have h1 : l.length - maxLen = 0 := by omega
      have h2 : l.length + 1 - maxLen = 0 := by omega
      simp [h1, h2]
      omega
    · have h1 : l.length - (l.length - maxLen) = maxLen := by omega
      have hlt : maxLen < l.length - (l.length - maxLen) + 1 := by omega
      simp only [h1, if_pos hlt]
      have hd : l.drop (l.length - maxLen) ++ [x] = (l ++ [x]).drop (l.length - maxLen) := by
        rw [List.drop_append_of_le_length (by omega)]
      rw [hd, List.tail_drop]
      have he : l.length + 1 - maxLen = l.length - maxLen + 1 := by omega
      rw [he, if_pos (Nat.lt_succ_self maxLen)]

theorem foldl_fifoPush {α : Type} (maxLen : Nat) (calls : List α) :
    ∀ l : List α,
      List.foldl (fifoPush maxLen) (window maxLen l) calls = window maxLen (l ++ calls) := by
  induction calls with
  | nil => intro l; simp
  | cons c rest ih =>
    intro l
    simp only [List.foldl_cons, fifoPush_window]
    have := ih (l ++ [c])
    simpa using this

theorem memory_replayShort_window (m : Memory) (calls : List ShortCall) :
    ∀ l : List ShortEntry, m.short_term = window m.max_short_term l →
      (m.replayShort calls).short_term =
        window m.max_short_term (l ++ calls.map ShortCall.entry) := by
  induction calls generalizing m with
  | nil => intro l hl; simpa [Memory.replayShort] using hl
  | cons c rest ih =>
    intro l hl
    have step :
        (m.add_short_term c.thought c.action c.result c.now).short_term =
          window m.max_short_term (l ++ [c.entry]) := by
      simp only [Memory.add_short_term, hl]
      exact fifoPush_window _ _ _
    have := ih (m.add_short_term c.thought c.action c.result c.now)
      (l ++ [c.entry]) step
    simpa [Memory.replayShort, Memory.add_short_term] using this

theorem agentMemory_replayShort_window {E : Type} (m : AgentMemory E)
    (md : List (List Char × ℚ)) (calls : List ShortCall) :
    ∀ l : List AShortEntry, m.short_term = window m.max_short_term l →
      (m.replayShort md calls).short_term =
        window m.max_short_term (l ++ calls.map (fun c => c.aentry md)) := by
  induction calls generalizing m with
  | nil => intro l hl; simpa [AgentMemory.replayShort] using hl
  | cons c rest ih =>
    intro l hl
    have step :
        (m.add_short_term c.thought c.action c.result md c.now).short_term =
          window m.max_short_term (l ++ [c.aentry md]) := by
      simp only [AgentMemory.add_short_term, hl]
      exact fifoPush_window _ _ _
    have := ih (m.add_short_term c.thought c.action c.result md c.now)
      (l ++ [c.aentry md]) step
    simpa [AgentMemory.replayShort, AgentMemory.add_short_term] using this

/-- **C3.** For every sequence of `add_short_term` calls on a fresh store of
capacity `max_short_term`, the stored short-term entries are exactly the
window of the most recently added entries in insertion order (in particular
the count never exceeds the capacity).  Proved for both `Memory.add_short_term`
(src/llm_agents/agent.py) and `AgentMemory.add_short_term`
(src/llm_agents/advanced_agent.py). -/
theorem C3_short_term_fifo_window (maxS maxL : Nat) (calls : List ShortCall)
    (E : Type) (md : List (List Char × ℚ)) :
    (((Memory.init maxS maxL).replayShort calls).short_term =
        window maxS (calls.map ShortCall.entry) ∧
      ((Memory.init maxS maxL).replayShort calls).short_term.length ≤ maxS) ∧
    (((AgentMemory.init E maxS maxL).replayShort md calls).short_term =
        window maxS (calls.map (fun c => c.aentry md)) ∧
      ((AgentMemory.init E maxS maxL).replayShort md calls).short_term.length ≤ maxS) := by
  have h1 := memory_replayShort_window (Memory.init maxS maxL) calls []
    (by simp [Memory.init, window])
  have h2 := agentMemory_replayShort_window (AgentMemory.init E maxS maxL) md calls []
    (by simp [AgentMemory.init, window])
  simp only [List.nil_append] at h1 h2
  refine ⟨⟨h1, ?_⟩, ⟨h2, ?_⟩⟩
  · rw [h1]; exact length_window _ _
  · rw [h2]; exact length_window _ _

theorem dictMem_iff {V : Type} (d : List (List Char × V)) (k : List Char) :
    dictMem d k = true ↔ k ∈ d.map Prod.fst := by
  simp only [dictMem, List.any_eq_true, List.mem_map, beq_iff_eq]

theorem dictSet_keys_of_not_mem {V : Type} {d : List (List Char × V)} {k : List Char}
    (h : k ∉ d.map Prod.fst) (v : V) :
    dictSet d k v = d ++ [(k, v)] := by
  have hb : dictMem d k = false :=
    Bool.eq_false_iff.mpr (fun hb => h ((dictMem_iff d k).mp hb))
  simp [dictSet, hb]

theorem dictDel_keys {V : Type} (d : List (List Char × V)) (k : List Char) :
    (dictDel d k).map Prod.fst = (d.map Prod.fst).filter (fun x => !(x == k)) := by
  induction d with
  | nil => rfl
  | cons p rest ih =>
    by_cases h : p.1 = k
    · simp only [dictDel, List.map_cons, List.filter_cons, h, beq_self_eq_true,
        Bool.not_true] at ih ⊢
      simpa [dictDel] using ih
    · have hb : (p.1 == k) = false := by simp [h]
      simp only [dictDel, List.map_cons, List.filter_cons, hb, Bool.not_false,
        List.map_cons] at ih ⊢
      rw [if_pos trivial, if_pos trivial, List.map_cons]
      rw [ih]

theorem countP_eq_one_of_nodup_mem {k : List Char} :
    ∀ {l : List (List Char)}, l.Nodup → k ∈ l →
      l.countP (fun x => x == k) = 1 := by
  intro l
  induction l with
  | nil => intro _ h; cases h
  | cons a t ih =>
    intro hnd hm
    obtain ⟨hna, hndt⟩ := List.nodup_cons.mp hnd
    rw [List.countP_cons]
    rcases List.mem_cons.mp hm with rfl | hmem
    · have hz : t.countP (fun x => x == k) = 0 := by
        apply List.countP_eq_zero.mpr
        intro b hb
        simp only [beq_iff_eq]
        intro he; subst he; exact hna hb
      simp [hz]
    · have ha : (a == k) = false := by
        simp only [beq_eq_false_iff_ne]
        intro he; subst he; exact hna hmem
      rw [ih hndt hmem]
      simp [ha]

theorem filter_ne_of_not_mem {k : List Char} :
    ∀ {l : List (List Char)}, k ∉ l → l.filter (fun x => !(x == k)) = l := by
  intro l hl
  apply List.filter_eq_self.mpr
  intro a ha
  have hne : a ≠ k := fun h => hl (h ▸ ha)
  simp [hne]

theorem add_long_term_invariant {E : Type} (encode : List Char → E)
    (m : AgentMemory E) (c : LongCall)
    (hinv : embInvariant m) (hk : c.key ∉ m.long_term.map ALongEntry.key) :
    embInvariant (m.add_long_term encode c.key c.value c.metadata c.now) ∧
      ∀ x ∈ (m.add_long_term encode c.key c.value c.metadata c.now).long_term.map
          ALongEntry.key,
        x ∈ m.long_term.map ALongEntry.key ++ [c.key] := by
  obtain ⟨hkeys, hnd⟩ := hinv
  have hkemb : c.key ∉ m.embeddings.map Prod.fst := by rw [hkeys]; exact hk
  have hset := dictSet_keys_of_not_mem hkemb (encode c.value)
  unfold AgentMemory.add_long_term
  simp only [hset]
  by_cases hov : m.max_long_term < (m.long_term ++ [(⟨c.key, c.value, c.now, c.metadata⟩ :
      ALongEntry)]).length
  · rw [if_pos hov]
    cases hlt : m.long_term with
    | nil =>
      have hembnil : m.embeddings = [] := by
        have h0 : m.embeddings.map Prod.fst = [] := by rw [hkeys, hlt]; rfl
        exact List.map_eq_nil_iff.mp h0
      simp only [hlt, hembnil, List.nil_append]
      have hmem : dictMem ([(c.key, encode c.value)])
          (ALongEntry.key ⟨c.key, c.value, c.now, c.metadata⟩) = true := by
        simp [dictMem]
      refine ⟨⟨?_, ?_⟩, ?_⟩
      · simp [hmem, dictDel]
      · simp [hmem, dictDel]
      · intro x hx; simp at hx
    | cons hfst t =>
      simp only [hlt] at hkeys hnd hk
      have hhk : dictMem ((m.embeddings ++ [(c.key, encode c.value)])) hfst.key = true := by
        rw [dictMem_iff, List.map_append, hkeys]
        exact List.mem_append_left _ (by simp)
      simp only [hlt, List.cons_append, hhk, if_pos]
      have hknoth : c.key ≠ hfst.key := by
        intro he; apply hk; simp [he]
      have hhnotint : hfst.key ∉ t.map ALongEntry.key := by
        simp only [List.map_cons, List.nodup_cons] at hnd
        exact hnd.1
      have hknott : c.key ∉ t.map ALongEntry.key := by
        intro hx; apply hk; simp [hx]
      have hdel : (dictDel (m.embeddings ++ [(c.key, encode c.value)]) hfst.key).map
          Prod.fst = t.map ALongEntry.key ++ [c.key] := by
        rw [dictDel_keys]
        simp only [List.map_append, hkeys, List.map_cons, List.map_nil]
        rw [List.filter_append, List.filter_cons]
        simp only [beq_self_eq_true, Bool.not_true]
        rw [if_neg Bool.false_ne_true]
        rw [filter_ne_of_not_mem hhnotint,
          filter_ne_of_not_mem (l := [c.key]) (by simpa using Ne.symm hknoth)]
      refine ⟨⟨?_, ?_⟩, ?_⟩
      · rw [hdel]; simp
      · simp only [List.map_cons, List.nodup_cons] at hnd
        simp only [List.map_append, List.map_cons, List.map_nil]
        rw [List.nodup_append]
        refine ⟨hnd.2, List.nodup_singleton _, ?_⟩
        intro a ha
        simp only [List.mem_singleton]
        intro he; subst he; exact hknott ha
      · intro x hx
        simp only [List.map_append, List.map_cons, List.map_nil, List.mem_append,
          List.mem_cons] at hx ⊢
        rcases hx with hx | hx
        · exact Or.inl (Or.inr hx)
        · exact Or.inr hx
  · rw [if_neg hov]
    refine ⟨⟨?_, ?_⟩, ?_⟩
    · simp [hkeys]
    · simp only [List.map_append, List.map_cons, List.map_nil]
      rw [List.nodup_append]
      refine ⟨hnd, List.nodup_singleton _, ?_⟩
      intro a ha
      simp only [List.mem_singleton]
      intro he; subst he; exact hk ha
    · intro x hx
      simpa using hx

theorem replayLong_invariant {E : Type} (encode : List Char → E) :
    ∀ (calls : List LongCall) (m : AgentMemory E),
      embInvariant m →
      (calls.map LongCall.key).Nodup →
      (∀ x ∈ m.long_term.map ALongEntry.key, x ∉ calls.map LongCall.key) →
      embInvariant (m.replayLong encode calls) := by
  intro calls
  induction calls with
  | nil => intro m hm _ _; simpa [AgentMemory.replayLong] using hm
  | cons c rest ih =>
    intro m hm hnd hdisj
    have hknot : c.key ∉ m.long_term.map ALongEntry.key := by
      intro hx
      exact hdisj c.key hx (by simp)
    obtain ⟨hinv', hsub⟩ := add_long_term_invariant encode m c hm hknot
    simp only [List.map_cons, List.nodup_cons] at hnd
    have hdisj' : ∀ x ∈ (m.add_long_term encode c.key c.value c.metadata
        c.now).long_term.map ALongEntry.key, x ∉ rest.map LongCall.key := by
      intro x hx
      have hx2 := hsub x hx
      simp only [List.mem_append, List.mem_singleton] at hx2
      rcases hx2 with hx' | hx'
      · intro hmem
        exact hdisj x hx' (by simp only [List.map_cons, List.mem_cons]; exact Or.inr hmem)
      · subst hx'; exact hnd.1
    have hrec := ih (m.add_long_term encode c.key c.value c.metadata c.now) hinv'
      hnd.2 hdisj'
    simpa [AgentMemory.replayLong] using hrec

/-- **C4 (counterexample).**  The claimed invariant — every key in the
embeddings map corresponds to exactly one live long-term entry — fails on the
code as soon as two `add_long_term` calls share a key: after
`add_long_term("a", "x")` then `add_long_term("a", "y")`, key `"a"` is in the
embeddings map but two live long-term entries carry it (and evicting the older
of the two would delete the embedding the newer one still needs). -/
theorem C4_counterexample :
    dictMem (((AgentMemory.init (List Char) 20 1000).add_long_term id
        "a".data "x".data [] 0).add_long_term id "a".data "y".data [] 1).embeddings
      "a".data = true ∧
    ((((AgentMemory.init (List Char) 20 1000).add_long_term id
        "a".data "x".data [] 0).add_long_term id "a".data "y".data [] 1).long_term.filter
      (fun e => e.key == "a".data)).length = 2 := by
  constructor <;> rfl

/-- **C4 (amended).**  Provided the keys of the `add_long_term` calls are
pairwise distinct, the claim holds: after every operation the list of
embedding keys coincides with the list of live long-term keys (so a
capacity-overflow eviction also removes the evicted entry's embedding and no
embedding key outlives its entry), and every key in the embeddings map
corresponds to exactly one live long-term entry. -/
theorem C4_embedding_invariant_distinct_keys (E : Type) (encode : List Char → E)
    (maxS maxL : Nat) (calls : List LongCall)
    (hnd : (calls.map LongCall.key).Nodup) (n : Nat) :
    ((AgentMemory.init E maxS maxL).replayLong encode (calls.take n)).embeddings.map
        Prod.fst =
      ((AgentMemory.init E maxS maxL).replayLong encode (calls.take n)).long_term.map
        ALongEntry.key ∧
    ∀ k, dictMem ((AgentMemory.init E maxS maxL).replayLong encode
        (calls.take n)).embeddings k = true →
      (((AgentMemory.init E maxS maxL).replayLong encode (calls.take n)).long_term.filter
        (fun e => e.key == k)).length = 1 := by
  have hnd' : ((calls.take n).map LongCall.key).Nodup := by
    have hs : List.Sublist ((calls.take n).map LongCall.key) (calls.map LongCall.key) :=
      (List.take_sublist n calls).map _
    exact hnd.sublist hs
  have hinv := replayLong_invariant encode (calls.take n) (AgentMemory.init E maxS maxL)
    ⟨by simp [AgentMemory.init], by simp [AgentMemory.init]⟩ hnd'
    (by intro x hx; simp [AgentMemory.init] at hx)
  obtain ⟨hkeys, hndk⟩ := hinv
  refine ⟨hkeys, ?_⟩
  intro k hk
  rw [dictMem_iff, hkeys] at hk
  have hcount := countP_eq_one_of_nodup_mem hndk hk
  rw [List.countP_map] at hcount
  rw [← List.countP_eq_length_filter]
  exact hcount

/-- **C4 (witness).**  The amended theorem applied to two distinct-key calls
with `max_long_term = 1`, so the second call evicts the first entry. -/
theorem C4_witness :
    (((AgentMemory.init (List Char) 20 1).replayLong id
        ([⟨"a".data, "x".data, [], 0⟩, ⟨"b".data, "y".data, [], 1⟩].take 2)).embeddings.map
        Prod.fst =
      ((AgentMemory.init (List Char) 20 1).replayLong id
        ([⟨"a".data, "x".data, [], 0⟩, ⟨"b".data, "y".data, [], 1⟩].take 2)).long_term.map
        ALongEntry.key) ∧
    (((AgentMemory.init (List Char) 20 1).replayLong id
        ([⟨"a".data, "x".data, [], 0⟩, ⟨"b".data, "y".data, [], 1⟩].take 2)).long_term.filter
      (fun e => e.key == "b".data)).length = 1 := by
  have h := C4_embedding_invariant_distinct_keys (List Char) id 20 1
    [⟨"a".data, "x".data, [], 0⟩, ⟨"b".data, "y".data, [], 1⟩] (by decide) 2
  exact ⟨h.1, h.2 "b".data (by decide)⟩

theorem splitFirst_correct (pat : List Char) :
    ∀ l a b, splitFirst pat l = some (a, b) → l = a ++ pat ++ b := by
  intro l
  induction l with
  | nil =>
    intro a b h
    simp only [splitFirst] at h
    by_cases hp : pat = []
    · rw [if_pos hp] at h
      cases h
      simp [hp]
    · rw [if_neg hp] at h
      cases h
  | cons c rest ih =>
    intro a b h
    simp only [splitFirst] at h
    by_cases hp : pat.isPrefixOf (c :: rest) = true
    · rw [if_pos hp] at h
      cases h
      obtain ⟨t, ht⟩ := (List.isPrefixOf_iff_prefix.mp hp)
      rw [← ht, List.nil_append, List.drop_left]
    · rw [if_neg hp] at h
      rcases ho : splitFirst pat rest with _ | p
      · rw [ho] at h; cases h
      · rw [ho] at h
        simp only [Option.map_some'] at h
        cases h
        have := ih p.1 p.2 ho
        simp [this]

theorem splitFirst_length (pat : List Char) {l a b : List Char}
    (h : splitFirst pat l = some (a, b)) :
    l.length = a.length + pat.length + b.length := by
  have := splitFirst_correct pat l a b h
  subst this
  simp
  omega

theorem occursIn_nil_of_ne (pat : List Char) (hp : pat ≠ []) :
    occursIn pat [] = false := by
  unfold occursIn splitFirst
  rw [if_neg hp]
  rfl

theorem afterLastAux_of_none {pat l : List Char}
    (h : splitFirst pat l = none) (fuel : Nat) :
    afterLastAux pat fuel l = l := by
  cases fuel with
  | zero => rfl
  | succ f => simp only [afterLastAux, h]

/-- Correctness of `afterLast` = `split(pat)[-1]`: on any text where `pat`
occurs, the result is a suffix preceded by an occurrence of `pat` and itself
free of `pat`. -/
theorem afterLastAux_spec (pat : List Char) (hp : pat ≠ []) :
    ∀ (fuel : Nat) (l : List Char), l.length ≤ fuel →
      occursIn pat l = true →
      ∃ pre, l = pre ++ pat ++ afterLastAux pat fuel l ∧
        occursIn pat (afterLastAux pat fuel l) = false := by
  intro fuel
  induction fuel with
  | zero =>
    intro l hl hocc
    have : l = [] := List.length_eq_zero.mp (Nat.le_zero.mp hl)
    subst this
    rw [occursIn_nil_of_ne pat hp] at hocc
    cases hocc
  | succ f ih =>
    intro l hl hocc
    rcases ho : splitFirst pat l with _ | pr
    · simp only [occursIn, ho, Option.isSome_none] at hocc
      exact absurd hocc Bool.false_ne_true
    · obtain ⟨a, b⟩ := pr
      have hdecomp := splitFirst_correct pat l a b ho
      have hlen := splitFirst_length pat ho
      have hple : 1 ≤ pat.length := by
        cases pat with
        | nil => exact absurd rfl hp
        | cons x xs => simp
      have hbf : b.length ≤ f := by omega
      simp only [afterLastAux, ho]
      rcases hob : occursIn pat b with _ | _
      · rw [afterLastAux_of_none (by simpa [occursIn, Option.isSome_iff_exists] using hob) f]
        exact ⟨a, hdecomp, hob⟩
      · obtain ⟨pre', hpre', hfree⟩ := ih b hbf hob
        refine ⟨a ++ pat ++ pre', ?_, hfree⟩
        have h2 : a ++ pat ++ b = a ++ pat ++ (pre' ++ pat ++ afterLastAux pat f b) :=
          congrArg (fun t => a ++ pat ++ t) hpre'
        rw [hdecomp, h2]
        simp

theorem afterLast_spec (pat : List Char) (hp : pat ≠ []) (l : List Char)
    (hocc : occursIn pat l = true) :
    ∃ pre, l = pre ++ pat ++ afterLast pat l ∧
      occursIn pat (afterLast pat l) = false :=
  afterLastAux_spec pat hp l.length l (Nat.le_refl _) hocc

/-- **C5.**  (i) Whenever the final-answer marker occurs in the model text —
regardless of any action block also present — `_parse` returns the
`"Final Answer"` sentinel whose payload is the stripped text after the (last)
marker: the text decomposes as `pre ++ marker ++ payload-source` with no
further marker inside the payload source.  (ii) When neither the marker
occurs nor the action regex matches, `_parse` fails with the `ValueError`
carrying the unparsable text. -/
theorem C5_parse_priority_and_parse_error (g : List Char) :
    (occursIn FINAL_ANSWER_TOKEN g = true →
      ∃ pre, g = pre ++ FINAL_ANSWER_TOKEN ++ afterLast FINAL_ANSWER_TOKEN g ∧
        occursIn FINAL_ANSWER_TOKEN (afterLast FINAL_ANSWER_TOKEN g) = false ∧
        parseGenerated g =
          .ok ("Final Answer".data, pyStrip (afterLast FINAL_ANSWER_TOKEN g))) ∧
    (occursIn FINAL_ANSWER_TOKEN g = false → matchAction g = none →
      parseGenerated g = .error (.valueError
        ("Output of LLM is not parsable for next tool use: `".data ++ g ++
          "`".data))) := by
  constructor
  · intro hocc
    obtain ⟨pre, hdec, hfree⟩ := afterLast_spec FINAL_ANSWER_TOKEN (by decide) g hocc
    exact ⟨pre, hdec, hfree, by simp only [parseGenerated, hocc, if_pos]⟩
  · intro hocc hma
    simp [parseGenerated, hocc, hma]

/-- **C5 (witness).**  Scenario C of the spec: text containing an action block
*and* a final-answer marker parses as the final answer `"Paris"`; unmatched
text `"hello"` parses to the `ValueError`. -/
theorem C5_witness :
    (∃ pre,
      ("Thought: done\nAction: Search\nAction Input: capital of France\nFinal Answer: Paris".data =
        pre ++ FINAL_ANSWER_TOKEN ++ afterLast FINAL_ANSWER_TOKEN
          "Thought: done\nAction: Search\nAction Input: capital of France\nFinal Answer: Paris".data) ∧
        occursIn FINAL_ANSWER_TOKEN (afterLast FINAL_ANSWER_TOKEN
          "Thought: done\nAction: Search\nAction Input: capital of France\nFinal Answer: Paris".data) =
          false ∧
        parseGenerated
          "Thought: done\nAction: Search\nAction Input: capital of France\nFinal Answer: Paris".data =
          .ok ("Final Answer".data, pyStrip (afterLast FINAL_ANSWER_TOKEN
            "Thought: done\nAction: Search\nAction Input: capital of France\nFinal Answer: Paris".data))) ∧
    parseGenerated "hello".data = .error (.valueError
      ("Output of LLM is not parsable for next tool use: `".data ++ "hello".data ++
        "`".data)) :=
  ⟨(C5_parse_priority_and_parse_error _).1 (by decide),
    (C5_parse_priority_and_parse_error _).2 (by decide) (by decide)⟩

/-! ## Claim C2: retries and the per-call statistics -/
theorem useLoop_last_ok (cfg : AdvToolCfg) (execA : Nat → AttemptOutcome) (r : List Char) :
    ∀ (fuel attempt : Nat) (lastErr : Option (List Char)),
      1 ≤ fuel →
      (∀ j, attempt ≤ j → j < attempt + fuel - 1 → (execA j).isOk = false) →
      execA (attempt + fuel - 1) = .ok r →
      useLoop cfg execA attempt fuel lastErr = .ok (applyAll cfg.post_processors r) := by
  intro fuel
  induction fuel with
  | zero => intro attempt lastErr h; exact absurd h (by omega)
  | succ f ih =>
    intro attempt lastErr _ hfail hok
    by_cases hf : f = 0
    · subst hf
      have he : attempt + 1 - 1 = attempt := by omega
      rw [he] at hok
      simp only [useLoop, hok]
    · have hfa : (execA attempt).isOk = false :=
        hfail attempt (Nat.le_refl _) (by omega)
      have hok' : execA (attempt + 1 + f - 1) = .ok r := by
        have he : attempt + 1 + f - 1 = attempt + (f + 1) - 1 := by omega
        rw [he]; exact hok
      have hfail' : ∀ j, attempt + 1 ≤ j → j < attempt + 1 + f - 1 →
          (execA j).isOk = false := by
        intro j h1 h2
        exact hfail j (by omega) (by omega)
      cases hx : execA attempt with
      | ok rr => rw [hx] at hfa; simp [AttemptOutcome.isOk] at hfa
      | timeout =>
        simp only [useLoop, hx]
        exact ih (attempt + 1) _ (by omega) hfail' hok'
      | exc msg =>
        simp only [useLoop, hx]
        exact ih (attempt + 1) _ (by omega) hfail' hok'

theorem useLoop_all_fail (cfg : AdvToolCfg) (execA : Nat → AttemptOutcome) :
    ∀ (fuel attempt : Nat) (lastErr : Option (List Char)),
      1 ≤ fuel →
      (∀ j, attempt ≤ j → j < attempt + fuel → (execA j).isOk = false) →
      useLoop cfg execA attempt fuel lastErr =
        .error (.exception (failMsg cfg.max_retries
          (attemptError cfg (execA (attempt + fuel - 1))))) := by
  intro fuel
  induction fuel with
  | zero => intro attempt lastErr h; exact absurd h (by omega)
  | succ f ih =>
    intro attempt lastErr _ hfail
    have hfa : (execA attempt).isOk = false :=
      hfail attempt (Nat.le_refl _) (by omega)
    by_cases hf : f = 0
    · subst hf
      have he : attempt + 1 - 1 = attempt := by omega
      rw [he]
      cases hx : execA attempt with
      | ok rr => rw [hx] at hfa; simp [AttemptOutcome.isOk] at hfa
      | timeout => simp only [useLoop, hx]; rfl
      | exc msg => simp only [useLoop, hx]; rfl
    · have hfail' : ∀ j, attempt + 1 ≤ j → j < attempt + 1 + f →
          (execA j).isOk = false := by
        intro j h1 h2
        exact hfail j (by omega) (by omega)
      have he : attempt + 1 + f - 1 = attempt + (f + 1) - 1 := by omega
      cases hx : execA attempt with
      | ok rr => rw [hx] at hfa; simp [AttemptOutcome.isOk] at hfa
      | timeout =>
        simp only [useLoop, hx]
        rw [ih (attempt + 1) _ (by omega) hfail', he]
      | exc msg =>
        simp only [useLoop, hx]
        rw [ih (attempt + 1) _ (by omega) hfail', he]

theorem lookupStats_statsUpdate (name : List Char) (ok : Bool) (now : Nat) (rt : ℚ) :
    ∀ stats : List (List Char × ToolStats),
      ((statsUpdate stats name ok now rt).find? (fun p => p.1 == name)).map (·.2) =
        ((stats.find? (fun p => p.1 == name)).map (·.2)).map
          (fun s => s.bump ok now rt) := by
  intro stats
  induction stats with
  | nil => rfl
  | cons p rest ih =>
    by_cases h : (p.1 == name) = true
    · simp only [statsUpdate, List.map_cons, List.find?, h, if_pos]
      rfl
    · have hb : (p.1 == name) = false := by
        rcases hv : (p.1 == name) with _ | _
        · rfl
        · exact absurd hv h
      simp only [statsUpdate, List.map_cons, List.find?, hb, if_neg, Bool.false_eq_true,
        not_false_eq_true]
      simpa [statsUpdate] using ih

/-- **C2 (counterexample).**  A tool with `max_retries = 3` whose `_execute`
raises `"boom"` on every attempt: `use` raises the *bare*
`Exception("Failed after 3 attempts. Last error: boom")` — not a
`ToolError(timeout|execution)` as the claim states. -/
theorem C2_counterexample :
    (AdvancedTool.use
        { max_retries := 3, timeout := 30, cache_results := true,
          pre_processors := [], post_processors := [] }
        [] (fun _ _ => .exc "boom".data) "in".data).1 =
      .error (.exception "Failed after 3 attempts. Last error: boom".data) ∧
    errIsToolError (AdvancedTool.use
        { max_retries := 3, timeout := 30, cache_results := true,
          pre_processors := [], post_processors := [] }
        [] (fun _ _ => .exc "boom".data) "in".data).1 = false := by
  constructor <;> rfl

/-- **C2 (amended).**  For every tool call through the retrying executor with
an un-cached input: (i) failing the first `max_retries − 1` attempts and
succeeding on the last returns the (post-processed) successful result;
(ii) failing all `max_retries` attempts raises a bare `Exception` whose
message embeds the count of attempts and the last observed error message
(not a `ToolError`), leaving the cache unchanged.  At the manager level:
(iii) a call whose tool returns increments that tool's `success_count` by
exactly 1 with `error_count` unchanged; (iv) a call whose tool raises
re-raises and increments `error_count` by exactly 1 with `success_count`
unchanged. -/
theorem C2_retry_success_and_failure :
    (∀ (cfg : AdvToolCfg) (cache : List (List Char × List Char))
        (execA : List Char → Nat → AttemptOutcome) (input r : List Char),
      (if cfg.cache_results then dictGet cache input else none) = none →
      1 ≤ cfg.max_retries →
      (∀ j, j < cfg.max_retries - 1 →
        (execA (applyAll cfg.pre_processors input) j).isOk = false) →
      execA (applyAll cfg.pre_processors input) (cfg.max_retries - 1) = .ok r →
      (AdvancedTool.use cfg cache execA input).1 =
        .ok (applyAll cfg.post_processors r)) ∧
    (∀ (cfg : AdvToolCfg) (cache : List (List Char × List Char))
        (execA : List Char → Nat → AttemptOutcome) (input : List Char),
      (if cfg.cache_results then dictGet cache input else none) = none →
      1 ≤ cfg.max_retries →
      (∀ j, j < cfg.max_retries →
        (execA (applyAll cfg.pre_processors input) j).isOk = false) →
      AdvancedTool.use cfg cache execA input =
        (.error (.exception (failMsg cfg.max_retries
          (attemptError cfg (execA (applyAll cfg.pre_processors input)
            (cfg.max_retries - 1))))), cache)) ∧
    (∀ (m : EnhancedToolManager) (name input : List Char) (now : Nat) (rt : ℚ)
        (tl : List Char × ToolBehavior) (r : List Char) (st : ToolStats),
      m.tools.find? (fun t => t.1 == name) = some tl →
      tl.2 input = .ok r →
      lookupStats m name = some st →
      (executeTool m name input now rt).1 = .ok r ∧
      ∃ st', lookupStats (executeTool m name input now rt).2 name = some st' ∧
        st'.success_count = st.success_count + 1 ∧
        st'.error_count = st.error_count ∧
        st'.usage_count = st.usage_count + 1) ∧
    (∀ (m : EnhancedToolManager) (name input : List Char) (now : Nat) (rt : ℚ)
        (tl : List Char × ToolBehavior) (e : PyExc) (st : ToolStats),
      m.tools.find? (fun t => t.1 == name) = some tl →
      tl.2 input = .error e →
      lookupStats m name = some st →
      (executeTool m name input now rt).1 = .error e ∧
      ∃ st', lookupStats (executeTool m name input now rt).2 name = some st' ∧
        st'.error_count = st.error_count + 1 ∧
        st'.success_count = st.success_count ∧
        st'.usage_count = st.usage_count + 1) := by
  refine ⟨?_, ?_, ?_, ?_⟩
  · intro cfg cache execA input r hc hmr hfail hok
    unfold AdvancedTool.use
    rw [hc]
    have hloop := useLoop_last_ok cfg (execA (applyAll cfg.pre_processors input)) r
      cfg.max_retries 0 none hmr
      (by intro j h1 h2; exact hfail j (by omega)) (by rw [Nat.zero_add]; exact hok)
    simp only [hloop]
  · intro cfg cache execA input hc hmr hfail
    unfold AdvancedTool.use
    rw [hc]
    have hloop := useLoop_all_fail cfg (execA (applyAll cfg.pre_processors input))
      cfg.max_retries 0 none hmr
      (by intro j h1 h2; exact hfail j (by omega))
    rw [Nat.zero_add] at hloop
    simp only [hloop]
  · intro m name input now rt tl r st hfind hok hst
    unfold executeTool
    rw [hfind]
    dsimp only
    rw [hok]
    refine ⟨rfl, st.bump true now rt, ?_, by simp [ToolStats.bump],
      by simp [ToolStats.bump], by simp [ToolStats.bump]⟩
    show ((statsUpdate m.tool_stats name true now rt).find?
        (fun p => p.1 == name)).map (·.2) = _
    rw [lookupStats_statsUpdate]
    unfold lookupStats at hst
    rw [hst]
    rfl
  · intro m name input now rt tl e st hfind herr hst
    unfold executeTool
    rw [hfind]
    dsimp only
    rw [herr]
    refine ⟨rfl, st.bump false now rt, ?_, by simp [ToolStats.bump],
      by simp [ToolStats.bump], by simp [ToolStats.bump]⟩
    show ((statsUpdate m.tool_stats name false now rt).find?
        (fun p => p.1 == name)).map (·.2) = _
    rw [lookupStats_statsUpdate]
    unfold lookupStats at hst
    rw [hst]
    rfl

/-- **C2 (witness).**  The amended theorem at concrete inputs: a 2-retry tool
failing once then succeeding returns the result; a 2-retry tool timing out on
every attempt raises the bare exception with the last timeout message; a
manager call on a succeeding tool bumps `success_count` to 1, on a raising
tool bumps `error_count` to 1. -/
theorem C2_witness :
    ((AdvancedTool.use
        { max_retries := 2, timeout := 30, cache_results := true,
          pre_processors := [], post_processors := [] }
        [] (fun _ i => match i with
          | 0 => .exc "e1".data
          | _ + 1 => .ok "res".data) "in".data).1 =
      .ok (applyAll [] "res".data)) ∧
    (AdvancedTool.use
        { max_retries := 2, timeout := 30, cache_results := true,
          pre_processors := [], post_processors := [] }
        [] (fun _ _ => .timeout) "x".data =
      (.error (.exception
        "Failed after 2 attempts. Last error: Timeout after 30 seconds".data), [])) ∧
    ((executeTool (mkManager [("t".data, fun _ => .ok "r1".data),
        ("u".data, fun _ => .error (.exception "bad".data))])
        "t".data "z".data 7 1).1 = .ok "r1".data ∧
      ∃ st', lookupStats (executeTool (mkManager [("t".data, fun _ => .ok "r1".data),
          ("u".data, fun _ => .error (.exception "bad".data))])
          "t".data "z".data 7 1).2 "t".data = some st' ∧
        st'.success_count = ToolStats.init.success_count + 1 ∧
        st'.error_count = ToolStats.init.error_count ∧
        st'.usage_count = ToolStats.init.usage_count + 1) ∧
    ((executeTool (mkManager [("t".data, fun _ => .ok "r1".data),
        ("u".data, fun _ => .error (.exception "bad".data))])
        "u".data "z".data 8 1).1 = .error (.exception "bad".data) ∧
      ∃ st', lookupStats (executeTool (mkManager [("t".data, fun _ => .ok "r1".data),
          ("u".data, fun _ => .error (.exception "bad".data))])
          "u".data "z".data 8 1).2 "u".data = some st' ∧
        st'.error_count = ToolStats.init.error_count + 1 ∧
        st'.success_count = ToolStats.init.success_count ∧
        st'.usage_count = ToolStats.init.usage_count + 1) :=
  ⟨C2_retry_success_and_failure.1
      { max_retries := 2, timeout := 30, cache_results := true,
        pre_processors := [], post_processors := [] }
      [] (fun _ i => match i with
        | 0 => .exc "e1".data
        | _ + 1 => .ok "res".data) "in".data "res".data rfl (by decide)
      (by intro j hj
          have hj' : j < 1 := hj
          have hj0 : j = 0 := by omega
          subst hj0
          rfl)
      rfl,
    C2_retry_success_and_failure.2.1
      { max_retries := 2, timeout := 30, cache_results := true,
        pre_processors := [], post_processors := [] }
      [] (fun _ _ => .timeout) "x".data rfl (by decide)
      (by intro j hj; rfl),
    C2_retry_success_and_failure.2.2.1
      (mkManager [("t".data, fun _ => .ok "r1".data),
        ("u".data, fun _ => .error (.exception "bad".data))])
      "t".data "z".data 7 1 ("t".data, fun _ => .ok "r1".data) "r1".data
      ToolStats.init rfl rfl rfl,
    C2_retry_success_and_failure.2.2.2
      (mkManager [("t".data, fun _ => .ok "r1".data),
        ("u".data, fun _ => .error (.exception "bad".data))])
      "u".data "z".data 8 1 ("u".data, fun _ => .error (.exception "bad".data))
      (.exception "bad".data) ToolStats.init rfl rfl rfl⟩

/-! ## Claim C6: chain validation is lazy, not eager -/
/-- **C6 (counterexample).**  Chain `c = ["A", "B"]` where only `"A"` is
registered: `execute_tool_chain` does raise the configuration `ValueError`
for `"B"`, but only after tool `"A"` has already been invoked (the trace of
invoked tools is `["A"]`, not `[]`), refuting "fails … before any tool in the
chain is invoked". -/
theorem C6_counterexample :
    (executeToolChain
        (defineToolChain (mkManager [("A".data, fun _ => .ok "ra".data)])
          "c".data ["A".data, "B".data])
        "c".data "go".data 0 (fun _ => 0)).1 =
      .error (.valueError "Tool 'B' not found in chain 'c'".data) ∧
    (executeToolChain
        (defineToolChain (mkManager [("A".data, fun _ => .ok "ra".data)])
          "c".data ["A".data, "B".data])
        "c".data "go".data 0 (fun _ => 0)).2.2.2 = ["A".data] := by
  constructor <;> rfl

theorem executeChainGo_lazy (chain : List Char) (rtO : Nat → ℚ) (bad : List Char)
    (rest : List (List Char)) :
    ∀ (pre : List (List Char)) (m : EnhancedToolManager) (input : List Char)
      (clock : Nat),
      m.tools.find? (fun t => t.1 == bad) = none →
      (∀ n ∈ pre, ∃ t, m.tools.find? (fun tl => tl.1 == n) = some t ∧
        ∀ s, ∃ out, t.2 s = .ok out) →
      (executeChainGo chain rtO m (pre ++ bad :: rest) input clock).1 =
        .error (.valueError ("Tool '".data ++ bad ++ "' not found in chain '".data ++
          chain ++ "'".data)) ∧
      (executeChainGo chain rtO m (pre ++ bad :: rest) input clock).2.2.2 = pre := by
  intro pre
  induction pre with
  | nil =>
    intro m input clock hbad _
    simp only [List.nil_append, executeChainGo, hbad]
    exact ⟨by trivial, by trivial⟩
  | cons n pre' ih =>
    intro m input clock hbad hpre
    obtain ⟨t, hfind, hok⟩ := hpre n (by simp)
    obtain ⟨out, hout⟩ := hok input
    have hrec := ih { m with
        tool_stats := statsUpdate m.tool_stats n true clock (rtO clock) }
      out (clock + 1) hbad
      (by intro nn hnn; exact hpre nn (by simp [hnn]))
    rcases hgo : executeChainGo chain rtO
        { m with tool_stats := statsUpdate m.tool_stats n true clock (rtO clock) }
        (pre' ++ bad :: rest) out (clock + 1) with ⟨res, m2, c2, tr⟩
    rw [hgo] at hrec
    simp only [List.cons_append, executeChainGo, hfind, hout, List.append_eq, hgo]
    exact ⟨hrec.1, congrArg (fun l => n :: l) hrec.2⟩

/-- **C6 (amended).**  A chain referencing an undefined tool name fails with
the configuration `ValueError` — but validation is *lazy*, not eager: the
error is raised only when the undefined name is reached, after every tool
before it in the chain has already been invoked.  (When all tools before the
first undefined name resolve and succeed, `execute_tool_chain` raises the
`ValueError` for that name and the invoked-tool trace is exactly the prefix
before it.) -/
theorem C6_chain_validation_is_lazy (m : EnhancedToolManager)
    (chain input : List Char) (clock : Nat) (rtO : Nat → ℚ)
    (pre rest : List (List Char)) (bad : List Char)
    (hchain : dictGet m.tool_chains chain = some (pre ++ bad :: rest))
    (hbad : m.tools.find? (fun t => t.1 == bad) = none)
    (hpre : ∀ n ∈ pre, ∃ t, m.tools.find? (fun tl => tl.1 == n) = some t ∧
      ∀ s, ∃ out, t.2 s = .ok out) :
    (executeToolChain m chain input clock rtO).1 =
      .error (.valueError ("Tool '".data ++ bad ++ "' not found in chain '".data ++
        chain ++ "'".data)) ∧
    (executeToolChain m chain input clock rtO).2.2.2 = pre := by
  unfold executeToolChain
  rw [hchain]
  exact executeChainGo_lazy chain rtO bad rest pre m input clock hbad hpre

/-- **C6 (witness).**  The amended theorem applied to the chain
`["A", "B"]` with only `"A"` registered and succeeding. -/
theorem C6_witness :
    (executeToolChain
        (defineToolChain (mkManager [("A".data, fun _ => .ok "ra".data)])
          "cw".data ["A".data, "B".data])
        "cw".data "go".data 3 (fun _ => 2)).1 =
      .error (.valueError ("Tool '".data ++ "B".data ++
        "' not found in chain '".data ++ "cw".data ++ "'".data)) ∧
    (executeToolChain
        (defineToolChain (mkManager [("A".data, fun _ => .ok "ra".data)])
          "cw".data ["A".data, "B".data])
        "cw".data "go".data 3 (fun _ => 2)).2.2.2 = ["A".data] :=
  C6_chain_validation_is_lazy
    (defineToolChain (mkManager [("A".data, fun _ => .ok "ra".data)])
      "cw".data ["A".data, "B".data])
    "cw".data "go".data 3 (fun _ => 2) ["A".data] [] "B".data rfl rfl
    (by
      intro n hn
      have hn' : n = "A".data := by simpa using hn
      subst hn'
      exact ⟨("A".data, fun _ => .ok "ra".data), rfl, fun s => ⟨"ra".data, rfl⟩⟩)

theorem bump_balanced {s : ToolStats} (h : statsBalanced s) (ok : Bool)
    (now : Nat) (rt : ℚ) : statsBalanced (s.bump ok now rt) := by
  cases ok <;> simp [statsBalanced, ToolStats.bump] at h ⊢ <;> omega

theorem statsUpdate_balanced {stats : List (List Char × ToolStats)}
    (h : ∀ p ∈ stats, statsBalanced p.2) (name : List Char) (ok : Bool)
    (now : Nat) (rt : ℚ) :
    ∀ p ∈ statsUpdate stats name ok now rt, statsBalanced p.2 := by
  intro p hp
  obtain ⟨q, hq, hfq⟩ := List.mem_map.mp hp
  by_cases hcase : (q.1 == name) = true
  · rw [if_pos hcase] at hfq
    rw [← hfq]
    exact bump_balanced (h q hq) ok now rt
  · rw [if_neg hcase] at hfq
    rw [← hfq]
    exact h q hq

theorem executeTool_balanced {m : EnhancedToolManager} (h : mgrBalanced m)
    (name input : List Char) (now : Nat) (rt : ℚ) :
    mgrBalanced (executeTool m name input now rt).2 := by
  unfold executeTool
  rcases hf : m.tools.find? (fun t => t.1 == name) with _ | t
  · rw [hf]; exact h
  · rw [hf]
    dsimp only
    rcases hr : t.2 input with e | r
    · exact statsUpdate_balanced h name false now rt
    · exact statsUpdate_balanced h name true now rt

theorem executeChainGo_balanced (chain : List Char) (rtO : Nat → ℚ) :
    ∀ (names : List (List Char)) (m : EnhancedToolManager) (input : List Char)
      (clock : Nat), mgrBalanced m →
      mgrBalanced (executeChainGo chain rtO m names input clock).2.1 := by
  intro names
  induction names with
  | nil => intro m input clock h; exact h
  | cons n rest ih =>
    intro m input clock h
    unfold executeChainGo
    rcases hf : m.tools.find? (fun t => t.1 == n) with _ | t
    · rw [hf]; exact h
    · rw [hf]
      dsimp only
      rcases hr : t.2 input with e | r
      · exact statsUpdate_balanced h n false clock (rtO clock)
      · have hm' : mgrBalanced { m with
            tool_stats := statsUpdate m.tool_stats n true clock (rtO clock) } :=
          statsUpdate_balanced h n true clock (rtO clock)
        exact ih { m with
            tool_stats := statsUpdate m.tool_stats n true clock (rtO clock) }
          r (clock + 1) hm'

theorem applyOp_balanced (rtO : Nat → ℚ) {s : EnhancedToolManager × Nat}
    (h : mgrBalanced s.1) (op : MgrOp) : mgrBalanced (applyOp rtO s op).1 := by
  cases op with
  | execTool name input => exact executeTool_balanced h name input s.2 (rtO s.2)
  | execChain name input =>
    unfold applyOp executeToolChain
    rcases hc : dictGet s.1.tool_chains name with _ | names
    · dsimp only
      rw [hc]
      exact h
    · dsimp only
      rw [hc]
      dsimp only
      exact executeChainGo_balanced name rtO names s.1 input s.2 h
  | defChain name tool_names => exact h

theorem applyOps_balanced (rtO : Nat → ℚ) (ops : List MgrOp) :
    ∀ (s : EnhancedToolManager × Nat), mgrBalanced s.1 →
      mgrBalanced (applyOps rtO s ops).1 := by
  induction ops with
  | nil => intro s h; exact h
  | cons op rest ih =>
    intro s h
    exact ih (applyOp rtO s op) (applyOp_balanced rtO h op)

/-- **C9.**  (i) Starting from a freshly constructed manager, after any
sequence of `execute_tool` / `execute_tool_chain` / `define_tool_chain`
operations, every tool's statistics satisfy
`usage_count = success_count + error_count`.  (ii) One `execute_tool` call on
a registered tool updates the tool's statistics exactly once whether the tool
returned or raised: `usage_count` grows by exactly 1, `last_used` becomes the
call's timestamp, `average_response_time` folds the call's elapsed time into
the incremental mean once, and exactly one of `success_count`/`error_count`
grows by 1. -/
theorem C9_stats_invariant :
    (∀ (tools : List (List Char × ToolBehavior)) (rtO : Nat → ℚ) (ops : List MgrOp)
        (name : List Char) (st : ToolStats),
      lookupStats (applyOps rtO (mkManager tools, 0) ops).1 name = some st →
      st.usage_count = st.success_count + st.error_count) ∧
    (∀ (m : EnhancedToolManager) (name input : List Char) (now : Nat) (rt : ℚ)
        (tl : List Char × ToolBehavior) (st : ToolStats),
      m.tools.find? (fun t => t.1 == name) = some tl →
      lookupStats m name = some st →
      ∃ st', lookupStats (executeTool m name input now rt).2 name = some st' ∧
        st'.usage_count = st.usage_count + 1 ∧
        st'.last_used = some now ∧
        st'.average_response_time =
          (st.average_response_time * (((st.usage_count + 1 : Nat) : ℚ) - 1) + rt) /
            ((st.usage_count + 1 : Nat) : ℚ) ∧
        st'.success_count + st'.error_count = st.success_count + st.error_count + 1) := by
  constructor
  · intro tools rtO ops name st hlook
    have hinit : mgrBalanced (mkManager tools) := by
      intro p hp
      obtain ⟨q, _, hfq⟩ := List.mem_map.mp hp
      rw [← hfq]
      rfl
    have hbal := applyOps_balanced rtO ops (mkManager tools, 0) hinit
    unfold lookupStats at hlook
    rcases hfind : (applyOps rtO (mkManager tools, 0) ops).1.tool_stats.find?
        (fun p => p.1 == name) with _ | p
    · rw [hfind] at hlook; cases hlook
    · rw [hfind] at hlook
      have hp : p ∈ (applyOps rtO (mkManager tools, 0) ops).1.tool_stats :=
        List.mem_of_find?_eq_some hfind
      have := hbal p hp
      simp only [Option.map_some'] at hlook
      cases hlook
      exact this
  · intro m name input now rt tl st hfind hst
    unfold executeTool
    rw [hfind]
    dsimp only
    rcases hr : tl.2 input with e | r
    · refine ⟨st.bump false now rt, ?_, rfl, rfl, rfl, by simp [ToolStats.bump]; omega⟩
      show ((statsUpdate m.tool_stats name false now rt).find?
          (fun p => p.1 == name)).map (·.2) = _
      rw [lookupStats_statsUpdate]
      unfold lookupStats at hst
      rw [hst]
      rfl
    · refine ⟨st.bump true now rt, ?_, rfl, rfl, rfl, by simp [ToolStats.bump]; omega⟩
      show ((statsUpdate m.tool_stats name true now rt).find?
          (fun p => p.1 == name)).map (·.2) = _
      rw [lookupStats_statsUpdate]
      unfold lookupStats at hst
      rw [hst]
      rfl

/-! ## Claim C1: loop bound and the value returned on budget exhaustion -/
theorem runGo_loops_le (tools : List (List Char × ToolBehavior))
    (oracle : Nat → List Char) (question : List Char) :
    ∀ (fuel : Nat) (mem : Memory) (prev : List (List Char)) (numLoops maxLoops : Nat),
      numLoops ≤ maxLoops →
      (runGo tools oracle question mem prev numLoops maxLoops fuel).2.2 ≤ maxLoops := by
  intro fuel
  induction fuel with
  | zero => intro mem prev n mx h; exact h
  | succ f ih =>
    intro mem prev n mx h
    simp only [runGo]
    split
    · rename_i hlt
      split
      · exact hlt
      · split
        · exact hlt
        · split
          · exact hlt
          · split
            · exact ih _ _ _ _ (by omega)
            · exact ih _ _ _ _ (by omega)
    · exact h

theorem runGo_no_final (tools : List (List Char × ToolBehavior))
    (oracle : Nat → List Char) (question : List Char)
    (hnf : ∀ i, isFinalParse (parseGenerated (oracle i)) = false) :
    ∀ (fuel : Nat) (mem : Memory) (prev : List (List Char)) (numLoops maxLoops : Nat),
      (runGo tools oracle question mem prev numLoops maxLoops fuel).1 = .ok none ∨
        ∃ e, (runGo tools oracle question mem prev numLoops maxLoops fuel).1 =
          .error e := by
  intro fuel
  induction fuel with
  | zero => intro mem prev n mx; left; rfl
  | succ f ih =>
    intro mem prev n mx
    simp only [runGo]
    split
    · rename_i hlt
      split
      · rename_i e heq
        right; exact ⟨e, rfl⟩
      · rename_i tool toolInput heq
        split
        · rename_i hfa
          have hthis := hnf n
          rw [heq] at hthis
          subst hfa
          exact absurd hthis (by simp [isFinalParse])
        · split
          · right; exact ⟨_, rfl⟩
          · split
            · exact ih _ _ _ _
            · exact ih _ _ _ _
    · left; rfl

theorem advRunGo_loops_le (tools : List (List Char × ToolBehavior)) (threshold : ℚ) :
    ∀ (fuel : Nat) (mem : AgentMemory (List Char)) (goal : AgentGoal)
      (stats : List (List Char × Nat × Nat)) (prev : List ((List Char) × (List Char)))
      (numLoops maxLoops : Nat),
      numLoops ≤ maxLoops →
      (advRunGo tools threshold mem goal stats prev numLoops maxLoops fuel).2 ≤
        maxLoops := by
  intro fuel
  induction fuel with
  | zero => intro mem goal stats prev n mx h; exact h
  | succ f ih =>
    intro mem goal stats prev n mx h
    simp only [advRunGo]
    split
    · rename_i hg
      by_cases hconf : (9 / 10 : ℚ) < threshold
      · rw [if_pos hconf]
        dsimp only
        split
        · exact Nat.succ_le_of_lt hg.1
        · split
          · exact Nat.succ_le_of_lt hg.1
          · exact ih _ _ _ _ _ _ (by omega)
      · rw [if_neg hconf]
        dsimp only
        split
        · exact Nat.succ_le_of_lt hg.1
        · split
          · exact Nat.succ_le_of_lt hg.1
          · exact ih _ _ _ _ _ _ (by omega)
    · exact h

theorem any_key_preserved (name name' : List Char) (b : Bool)
    (stats : List (List Char × Nat × Nat))
    (h : stats.any (fun p => p.1 == name) = true) :
    (stats.map (fun p => if p.1 == name' then
        (p.1, if b then (p.2.1 + 1, p.2.2) else (p.2.1, p.2.2 + 1)) else p)).any
      (fun p => p.1 == name) = true := by
  rw [List.any_eq_true] at h ⊢
  obtain ⟨q, hq, hpq⟩ := h
  refine ⟨_, List.mem_map_of_mem _ hq, ?_⟩
  by_cases hc : (q.1 == name') = true
  · rw [if_pos hc]; exact hpq
  · rw [if_neg hc]; exact hpq

theorem advExecuteTool_resolved {tools : List (List Char × ToolBehavior)}
    {stats : List (List Char × Nat × Nat)} {tb : List Char × ToolBehavior}
    (hfind : tools.find? (fun t => t.1 == "example".data) = some tb)
    (hany : stats.any (fun p => p.1 == "example".data) = true) :
    ∃ r stats',
      advExecuteTool tools stats "example".data "example".data = (.ok r, stats') ∧
      stats'.any (fun p => p.1 == "example".data) = true := by
  unfold advExecuteTool
  rw [hfind]
  dsimp only
  cases hr : tb.2 "example".data with
  | ok r =>
    refine ⟨r, stats.map (fun p => if p.1 == "example".data then
        (p.1, if true then (p.2.1 + 1, p.2.2) else (p.2.1, p.2.2 + 1)) else p), ?_, ?_⟩
    · simp [advStatsIncr, hany]
    · exact any_key_preserved _ _ true stats hany
  | error e =>
    refine ⟨"Error executing tool ".data ++ "example".data ++ ": ".data ++ pyStrExc e,
      stats.map (fun p => if p.1 == "example".data then
        (p.1, if false then (p.2.1 + 1, p.2.2) else (p.2.1, p.2.2 + 1)) else p), ?_, ?_⟩
    · simp [advStatsIncr, hany]
    · exact any_key_preserved _ _ false stats hany

theorem advRunGo_returns_final (tools : List (List Char × ToolBehavior))
    (threshold : ℚ) (tb : List Char × ToolBehavior)
    (hth : threshold ≤ 9 / 10)
    (hfind : tools.find? (fun t => t.1 == "example".data) = some tb) :
    ∀ (fuel : Nat) (mem : AgentMemory (List Char)) (goal : AgentGoal)
      (stats : List (List Char × Nat × Nat)) (prev : List ((List Char) × (List Char)))
      (numLoops maxLoops : Nat),
      stats.any (fun p => p.1 == "example".data) = true →
      (advRunGo tools threshold mem goal stats prev numLoops maxLoops fuel).1 =
        .ok ADV_FINAL := by
  intro fuel
  induction fuel with
  | zero => intro mem goal stats prev n mx _; rfl
  | succ f ih =>
    intro mem goal stats prev n mx hany
    simp only [advRunGo]
    split
    · have hconf : ¬ ((9 / 10 : ℚ) < threshold) := not_lt.mpr hth
      rw [if_neg hconf]
      dsimp only
      obtain ⟨r, stats', heq, hany'⟩ := advExecuteTool_resolved hfind hany
      rw [heq]
      dsimp only
      split
      · rfl
      · exact ih _ _ _ _ _ _ hany'
    · rfl

/-- **C1 (counterexample).**  `EnhancedAgent.run` with `max_loops = 1` on a
model that keeps proposing a valid tool action never produces a final answer
string: exhausting the loop budget makes `run` fall off the `while` loop and
return Python's implicit `None` — not a best-effort synthesized answer
string.  (The loop did execute exactly its 1 permitted iteration.) -/
theorem C1_counterexample :
    returnsSomeString (enhancedRun [("t".data, fun _ => .ok "r".data)]
      (fun _ => "Action: t\nAction Input: x".data) "q".data
      (Memory.init 10 100) 1).1 = false ∧
    (enhancedRun [("t".data, fun _ => .ok "r".data)]
      (fun _ => "Action: t\nAction Input: x".data) "q".data
      (Memory.init 10 100) 1).2.2 = 1 := by
  constructor <;> rfl

/-- **C1 (amended).**  Both run loops execute at most `max_loops` iterations
and never hang.  But only `AdvancedAgent.run` returns a best-effort
synthesized answer string on budget exhaustion (provided the hard-coded
action's tool name `"example"` resolves in its registry — otherwise the stats
lookup raises `KeyError`); `EnhancedAgent.run`, when no iteration parses to a
`"Final Answer"` action, either raises (parse failure / unknown tool) or
returns `None` rather than a string. -/
theorem C1_loop_bound_and_exhaustion :
    (∀ (tools : List (List Char × ToolBehavior)) (oracle : Nat → List Char)
        (question : List Char) (mem0 : Memory) (maxLoops : Nat),
      (enhancedRun tools oracle question mem0 maxLoops).2.2 ≤ maxLoops) ∧
    (∀ (tools : List (List Char × ToolBehavior)) (oracle : Nat → List Char)
        (question : List Char) (mem0 : Memory) (maxLoops : Nat),
      (∀ i, isFinalParse (parseGenerated (oracle i)) = false) →
      (enhancedRun tools oracle question mem0 maxLoops).1 = .ok none ∨
        ∃ e, (enhancedRun tools oracle question mem0 maxLoops).1 = .error e) ∧
    (∀ (tools : List (List Char × ToolBehavior)) (threshold : ℚ)
        (goalText : List Char) (maxLoops : Nat),
      (advRun tools threshold goalText maxLoops).2 ≤ maxLoops) ∧
    (∀ (tools : List (List Char × ToolBehavior)) (threshold : ℚ)
        (goalText : List Char) (maxLoops : Nat) (tb : List Char × ToolBehavior),
      threshold ≤ 9 / 10 →
      tools.find? (fun t => t.1 == "example".data) = some tb →
      (advRun tools threshold goalText maxLoops).1 = .ok ADV_FINAL) := by
  refine ⟨?_, ?_, ?_, ?_⟩
  · intro tools oracle question mem0 maxLoops
    exact runGo_loops_le tools oracle question maxLoops mem0 [] 0 maxLoops
      (Nat.zero_le _)
  · intro tools oracle question mem0 maxLoops hnf
    exact runGo_no_final tools oracle question hnf maxLoops mem0 [] 0 maxLoops
  · intro tools threshold goalText maxLoops
    exact advRunGo_loops_le tools threshold maxLoops _ _ _ _ 0 maxLoops
      (Nat.zero_le _)
  · intro tools threshold goalText maxLoops tb hth hfind
    apply advRunGo_returns_final tools threshold tb hth hfind
    have htb : tb ∈ tools := List.mem_of_find?_eq_some hfind
    have hpred := List.find?_some hfind
    rw [List.any_eq_true]
    exact ⟨(tb.1, (0, 0)), List.mem_map_of_mem _ htb, hpred⟩

/-- **C1 (witness).**  The amended theorem at concrete inputs: an
`EnhancedAgent` whose model never yields a final answer (bound 2, no string
returned), and an `AdvancedAgent` with a registered `"example"` tool
returning the synthesized answer. -/
theorem C1_witness :
    ((enhancedRun [("t".data, fun _ => .ok "r".data)]
        (fun _ => "Action: t\nAction Input: x".data) "q".data
        (Memory.init 10 100) 2).2.2 ≤ 2) ∧
    ((enhancedRun [("t".data, fun _ => .ok "r".data)]
        (fun _ => "Action: t\nAction Input: x".data) "q".data
        (Memory.init 10 100) 2).1 = .ok none ∨
      ∃ e, (enhancedRun [("t".data, fun _ => .ok "r".data)]
        (fun _ => "Action: t\nAction Input: x".data) "q".data
        (Memory.init 10 100) 2).1 = .error e) ∧
    ((advRun [("example".data, fun _ => .ok "r".data)] (7 / 10) "g".data 20).2 ≤ 20) ∧
    ((advRun [("example".data, fun _ => .ok "r".data)] (7 / 10) "g".data 20).1 =
      .ok ADV_FINAL) :=
  ⟨C1_loop_bound_and_exhaustion.1 _ _ _ _ _,
    C1_loop_bound_and_exhaustion.2.1 _ _ _ _ _ (fun i => rfl),
    C1_loop_bound_and_exhaustion.2.2.1 _ _ _ _,
    C1_loop_bound_and_exhaustion.2.2.2 _ _ _ _
      ("example".data, fun _ => .ok "r".data) (by norm_num) rfl⟩

/-! ## Claims C8 and C10: unknown tools raise, tool errors become observations -/
/-- **C8.**  In any loop iteration of `EnhancedAgent.run` whose parsed action
names a tool absent from the registry (and is not a final answer), `run`
raises the `ValueError("Unknown tool: ...")` immediately: the run ends with
that exception after this iteration, the memory is left untouched, and the
failure is *not* absorbed as an observation string for a next context build
(there is no recursive continuation). -/
theorem C8_unknown_tool_raises (tools : List (List Char × ToolBehavior))
    (oracle : Nat → List Char) (question : List Char) (mem : Memory)
    (prev : List (List Char)) (numLoops maxLoops fuel : Nat)
    (tool toolInput : List Char)
    (hlt : numLoops < maxLoops)
    (hparse : parseGenerated (oracle numLoops) = .ok (tool, toolInput))
    (hnotfa : tool ≠ "Final Answer".data)
    (hmiss : (tools.reverse).find? (fun t => t.1 == tool) = none) :
    runGo tools oracle question mem prev numLoops maxLoops (fuel + 1) =
      (.error (.valueError ("Unknown tool: ".data ++ tool)), mem, numLoops + 1) := by
  simp only [runGo, if_pos hlt, hparse]
  split
  · rename_i hfa
    exact absurd hfa hnotfa
  · rw [hmiss]

/-- **C8 (witness).**  A model reply naming the unregistered tool `"ghost"`
makes the run raise `ValueError("Unknown tool: ghost")` with memory
unchanged after one iteration. -/
theorem C8_witness :
    runGo [("t".data, fun _ => .ok "r".data)]
      (fun _ => "Action: ghost\nAction Input: x".data) "q".data
      (Memory.init 10 100) [] 0 3 2 =
      (.error (.valueError ("Unknown tool: ".data ++ "ghost".data)),
        Memory.init 10 100, 1) :=
  C8_unknown_tool_raises [("t".data, fun _ => .ok "r".data)]
    (fun _ => "Action: ghost\nAction Input: x".data) "q".data
    (Memory.init 10 100) [] 0 3 1 "ghost".data "x".data
    (by decide) rfl (by decide) rfl

/-- **C10.**  In any loop iteration of `EnhancedAgent.run` whose resolved
tool raises, the iteration leaves the short-term memory store (indeed the
whole memory) unchanged — `add_short_term` sits inside the `try` after the
tool call, so it is skipped on the error path — and the failure is surfaced
only as the `"Error executing tool: ..."` observation text appended (with the
recovery thought) to the responses fed into the next context build. -/
theorem C10_tool_error_keeps_memory (tools : List (List Char × ToolBehavior))
    (oracle : Nat → List Char) (question : List Char) (mem : Memory)
    (prev : List (List Char)) (numLoops maxLoops fuel : Nat)
    (tool toolInput : List Char) (t : List Char × ToolBehavior) (e : PyExc)
    (hlt : numLoops < maxLoops)
    (hparse : parseGenerated (oracle numLoops) = .ok (tool, toolInput))
    (hnotfa : tool ≠ "Final Answer".data)
    (hfound : (tools.reverse).find? (fun tl => tl.1 == tool) = some t)
    (herr : t.2 toolInput = .error e) :
    runGo tools oracle question mem prev numLoops maxLoops (fuel + 1) =
      runGo tools oracle question mem
        (prev ++ [oracle numLoops ++
          "\nThought: I encountered an error. Let me try a different approach.".data ++
          "\n".data ++ OBSERVATION_TOKEN ++ " ".data ++
          ("Error executing tool: ".data ++ pyStrExc e) ++ "\n".data ++ THOUGHT_TOKEN])
        (numLoops + 1) maxLoops fuel := by
  simp only [runGo, if_pos hlt, hparse]
  split
  · rename_i hfa
    exact absurd hfa hnotfa
  · rw [hfound]
    dsimp only
    rw [herr]

/-- **C10 (witness).**  A registered tool that raises `Exception("boom")`
leaves memory untouched and appends only the error observation text. -/
theorem C10_witness :
    runGo [("t".data, fun _ => .error (.exception "boom".data))]
      (fun _ => "Action: t\nAction Input: x".data) "q".data
      (Memory.init 10 100) [] 0 3 2 =
      runGo [("t".data, fun _ => .error (.exception "boom".data))]
        (fun _ => "Action: t\nAction Input: x".data) "q".data
        (Memory.init 10 100)
        ([] ++ ["Action: t\nAction Input: x".data ++
          "\nThought: I encountered an error. Let me try a different approach.".data ++
          "\n".data ++ OBSERVATION_TOKEN ++ " ".data ++
          ("Error executing tool: ".data ++
            pyStrExc (.exception "boom".data)) ++ "\n".data ++ THOUGHT_TOKEN])
        1 3 1 :=
  C10_tool_error_keeps_memory [("t".data, fun _ => .error (.exception "boom".data))]
    (fun _ => "Action: t\nAction Input: x".data) "q".data
    (Memory.init 10 100) [] 0 3 1 "t".data "x".data
    ("t".data, fun _ => .error (.exception "boom".data)) (.exception "boom".data)
    (by decide) rfl (by decide) rfl rfl

theorem orderedInsert_filter (v : ℚ) (x : (List Char) × ℚ) :
    ∀ l : List ((List Char) × ℚ),
      (List.orderedInsert simGE x l).filter (fun p => p.2 == v) =
        if (x.2 == v) = true then x :: l.filter (fun p => p.2 == v)
        else l.filter (fun p => p.2 == v) := by
  intro l
  induction l with
  | nil =>
    simp only [List.orderedInsert_nil, List.filter_cons, List.filter_nil]
  | cons b t ih =>
    by_cases hr : simGE x b
    · rw [List.orderedInsert_of_le _ _ hr]
      rw [List.filter_cons]
    · simp only [List.orderedInsert, if_neg hr]
      rw [List.filter_cons, List.filter_cons, ih]
      have hlt : x.2 < b.2 := lt_of_not_le hr
      by_cases hxv : (x.2 == v) = true
      · have hbv : (b.2 == v) = false := by
          have hxe : x.2 = v := by exact_mod_cast of_decide_eq_true (by exact_mod_cast hxv)
          rw [beq_eq_false_iff_ne]
          intro he
          rw [he, ← hxe] at hlt
          exact lt_irrefl _ hlt
        rw [if_pos hxv, if_pos hxv, hbv]
        simp
      · rw [if_neg hxv, if_neg hxv]

theorem insertionSort_filter (v : ℚ) :
    ∀ l : List ((List Char) × ℚ),
      (List.insertionSort simGE l).filter (fun p => p.2 == v) =
        l.filter (fun p => p.2 == v) := by
  intro l
  induction l with
  | nil => rfl
  | cons x t ih =>
    simp only [List.insertionSort]
    rw [orderedInsert_filter, List.filter_cons, ih]

/-- **C7 (counterexample).**  Two entries with equal similarity (a constant
similarity function): `get_relevant_memory` returns the *older* entry first
(`"a"`, timestamp 0, inserted before `"b"`, timestamp 1), because CPython's
stable sort keeps insertion order on ties — the claim's most-recent-first tie
break is refuted. -/
theorem C7_counterexample :
    AgentMemory.get_relevant_memory (fun _ _ => (0 : ℚ)) id
      (((AgentMemory.init (List Char) 20 1000).add_long_term id
        "a".data "x".data [] 0).add_long_term id "b".data "y".data [] 1)
      "q".data 5 =
      [⟨"a".data, "x".data, 0, []⟩, ⟨"b".data, "y".data, 1, []⟩] ∧
    (⟨"a".data, "x".data, 0, []⟩ : ALongEntry).timestamp <
      (⟨"b".data, "y".data, 1, []⟩ : ALongEntry).timestamp ∧
    relPairs (fun _ _ => (0 : ℚ)) id
      (((AgentMemory.init (List Char) 20 1000).add_long_term id
        "a".data "x".data [] 0).add_long_term id "b".data "y".data [] 1)
      "q".data = [("a".data, 0), ("b".data, 0)] :=
  ⟨rfl, by decide, rfl⟩

/-- **C7 (amended).**  `get_relevant_memory` returns at most `k` entries,
selected and ordered by the key ranking sorted by non-increasing similarity
between the query representation and each stored representation; but
equal-similarity ties keep the embedding-insertion order (oldest first, by
sort stability: for every similarity value the ranked keys with that value
are exactly the embedding-order keys with that value) — not
most-recent-first. -/
theorem C7_ranking_sorted_stable (E : Type) (cos : E → E → ℚ)
    (encode : List Char → E) (m : AgentMemory E) (query : List Char) (k : Nat) :
    (AgentMemory.get_relevant_memory cos encode m query k).length ≤ k ∧
    List.Pairwise simGE (relRanked cos encode m query k) ∧
    ∀ v : ℚ,
      (List.insertionSort simGE (relPairs cos encode m query)).filter
          (fun p => p.2 == v) =
        (relPairs cos encode m query).filter (fun p => p.2 == v) := by
  refine ⟨?_, ?_, fun v => insertionSort_filter v _⟩
  · calc (AgentMemory.get_relevant_memory cos encode m query k).length
        ≤ (relRanked cos encode m query k).length := List.length_filterMap_le _ _
      _ ≤ k := by
          simp only [relRanked, List.length_take]
          omega
  · have hs : List.Sorted simGE
        (List.insertionSort simGE (relPairs cos encode m query)) :=
      List.sorted_insertionSort simGE _
    exact hs.sublist (List.take_sublist _ _)

/-- **C9 (witness).**  The invariant after a concrete operation sequence
(one direct call, a chain definition, one chain call), and the exactly-once
update of one `execute_tool` call. -/
theorem C9_witness :
    (((lookupStats (applyOps (fun _ => 0)
        (mkManager [("t".data, fun _ => .ok "r".data)], 0)
        [.execTool "t".data "x".data, .defChain "c".data ["t".data],
          .execChain "c".data "y".data]).1 "t".data).getD
        ToolStats.init).usage_count =
      ((lookupStats (applyOps (fun _ => 0)
        (mkManager [("t".data, fun _ => .ok "r".data)], 0)
        [.execTool "t".data "x".data, .defChain "c".data ["t".data],
          .execChain "c".data "y".data]).1 "t".data).getD
        ToolStats.init).success_count +
      ((lookupStats (applyOps (fun _ => 0)
        (mkManager [("t".data, fun _ => .ok "r".data)], 0)
        [.execTool "t".data "x".data, .defChain "c".data ["t".data],
          .execChain "c".data "y".data]).1 "t".data).getD
        ToolStats.init).error_count) ∧
    (∃ st', lookupStats (executeTool (mkManager [("t".data, fun _ => .ok "r".data)])
        "t".data "x".data 9 1).2 "t".data = some st' ∧
      st'.usage_count = ToolStats.init.usage_count + 1 ∧
      st'.last_used = some 9 ∧
      st'.average_response_time =
        (ToolStats.init.average_response_time *
          (((ToolStats.init.usage_count + 1 : Nat) : ℚ) - 1) + 1) /
          ((ToolStats.init.usage_count + 1 : Nat) : ℚ) ∧
      st'.success_count + st'.error_count =
        ToolStats.init.success_count + ToolStats.init.error_count + 1) :=
  ⟨C9_stats_invariant.1 [("t".data, fun _ => .ok "r".data)] (fun _ => 0)
      [.execTool "t".data "x".data, .defChain "c".data ["t".data],
        .execChain "c".data "y".data] "t".data _ rfl,
    C9_stats_invariant.2 (mkManager [("t".data, fun _ => .ok "r".data)])
      "t".data "x".data 9 1 ("t".data, fun _ => .ok "r".data) ToolStats.init
      rfl rfl⟩

end SmartLLMAgents

